import Mathlib

/-!
Verification of `src/api/utils/staticAnalyzer.js` and
`src/api/utils/sparseCheckout.js` of the ai-code-fixer backend.

The JavaScript code manipulates POSIX path strings through Node's `path`
module (`join`, `resolve`, `relative`, `basename`, `isAbsolute`, `sep = '/'`)
and plain JS string primitives (`startsWith`, `includes`, `trim`, `split`,
`replace(/\\/g, '/')`).  We embed those primitives over `List Char`
(the logical model of `String` in this toolchain) and then translate each
source function literally.  `process.cwd()` is threaded explicitly as a
`cwd` parameter; as in a real process it is an absolute path, and every
theorem below only exercises branches where `cwd` is irrelevant or absolute.
-/

namespace AiCodeFixer

/-! ### Character level string / path primitives -/

/-- A path component (the text between two `'/'` separators). -/
abbrev Seg := List Char

/-- Prepend a character to the first component of a split result. -/
def consHead (c : Char) : List Seg → List Seg
  | [] => [[c]]
  | s :: rest => (c :: s) :: rest

/-- `s.split(sep)` of JavaScript, on character lists.  `split '/' "" = [""]`,
`split '/' "/a" = ["", "a"]`, `split '/' "a/" = ["a", ""]`. -/
def splitOnChar (sep : Char) : List Char → List Seg
  | [] => [[]]
  | c :: cs => if c = sep then [] :: splitOnChar sep cs else consHead c (splitOnChar sep cs)

/-- Split a path into its `'/'`-separated components. -/
def splitSegs (l : List Char) : List Seg := splitOnChar '/' l

/-- Join char lists with a separator (JS `Array.prototype.join`). -/
def joinWithChar (sep : Char) : List Seg → List Char
  | [] => []
  | [s] => s
  | s :: rest => s ++ sep :: joinWithChar sep rest

/-- Join components with `'/'` (the inverse of `splitSegs` on slash-free
components). -/
def joinSegs (L : List Seg) : List Char := joinWithChar '/' L

/-- JS `String.prototype.startsWith` on character lists. -/
def isPrefixOfC (pre l : List Char) : Bool := pre.isPrefixOf l

/-- JS `String.prototype.includes` (substring occurrence) on character lists. -/
def infixOfC (needle : List Char) : List Char → Bool
  | [] => needle.isEmpty
  | c :: cs => needle.isPrefixOf (c :: cs) || infixOfC needle cs

/-- Does the path start with `'/'` (Node `path.isAbsolute`, POSIX)? -/
def isAbsC : List Char → Bool
  | [] => false
  | c :: _ => c = '/'

/-- Does the path end with `'/'`? (Node's trailing-separator test). -/
def endsSlash (l : List Char) : Bool :=
  match l.reverse with
  | c :: _ => c = '/'
  | [] => false

/-! ### Node `path.posix` model

Node's `normalizeString(path, allowAboveRoot)` walks the components and
maintains a stack: `""` and `"."` are dropped, `".."` pops a component
(or, when the stack is exhausted, is kept if `allowAboveRoot`, i.e. for
relative paths, and dropped otherwise), and everything else is pushed. -/

/-- One step of Node's `normalizeString` component walk.  `acc` is the
stack with the most recently emitted component first. -/
def normStep (allowAbove : Bool) (acc : List Seg) (seg : Seg) : List Seg :=
  if seg = [] ∨ seg = ['.'] then acc
  else if seg = ['.', '.'] then
    match acc with
    | [] => if allowAbove then [['.', '.']] else []
    | a :: rest => if a = ['.', '.'] then seg :: a :: rest else rest
  else seg :: acc

/-- The component stack after walking `segs` (most recent first). -/
def normStack (allowAbove : Bool) (segs : List Seg) : List Seg :=
  segs.foldl (normStep allowAbove) []

/-- The normalized components of `segs`, in path order. -/
def normSegs (allowAbove : Bool) (segs : List Seg) : List Seg :=
  (normStack allowAbove segs).reverse

/-- Components of `path.resolve(p)` (one argument, POSIX): resolve `p`
against the current working directory and normalize away `"."` / `".."`. -/
def resolveSegs (cwd p : List Char) : List Seg :=
  normSegs false (splitSegs (if isAbsC p then p else cwd ++ '/' :: p))

/-- Node `path.resolve(p)` (one argument, POSIX). -/
def resolveChars (cwd p : List Char) : List Char :=
  '/' :: joinSegs (resolveSegs cwd p)

/-- Node `path.normalize(p)` (POSIX): normalize components, keep relative
upward steps, preserve a trailing slash, map the empty result to `"."`. -/
def normalizeChars (p : List Char) : List Char :=
  if p = [] then ['.']
  else
    let isAbs := isAbsC p
    let core := joinSegs (normSegs (!isAbs) (splitSegs p))
    let core := if core = [] && !isAbs then ['.'] else core
    let core := if core ≠ [] && endsSlash p then core ++ ['/'] else core
    if isAbs then '/' :: core else core

/-- Node `path.join(...parts)` (POSIX): drop empty arguments, glue the rest
with `'/'`, normalize; an empty argument list yields `"."`. -/
def joinChars (parts : List (List Char)) : List Char :=
  let ps := parts.filter (fun l => l ≠ [])
  if ps = [] then ['.'] else normalizeChars (joinSegs ps)

/-- Length of the longest common component prefix. -/
def commonPrefixLen : List Seg → List Seg → Nat
  | a :: as, b :: bs => if a = b then commonPrefixLen as bs + 1 else 0
  | _, _ => 0

/-- Node `path.relative(f, t)` (POSIX): resolve both, return `""` when they
agree, otherwise climb out of the non-shared part of `f` with `".."` steps
and descend into the non-shared part of `t`. -/
def relativeChars (cwd f t : List Char) : List Char :=
  let fs := resolveSegs cwd f
  let ts := resolveSegs cwd t
  if fs = ts then []
  else
    let c := commonPrefixLen fs ts
    joinSegs (List.replicate (fs.length - c) ['.', '.'] ++ ts.drop c)

/-- Node `path.basename(p)` (POSIX): the last nonempty component, `""` if
there is none. -/
def basenameChars (p : List Char) : List Char :=
  (((splitSegs p).filter (fun s => s ≠ [])).getLast?).getD []

/-! ### String-level wrappers (what the JS source calls) -/

def pathJoin (parts : List String) : String := ⟨joinChars (parts.map String.data)⟩

def pathResolve (cwd p : String) : String := ⟨resolveChars cwd.data p.data⟩

def pathRelative (cwd f t : String) : String := ⟨relativeChars cwd.data f.data t.data⟩

def pathBasename (p : String) : String := ⟨basenameChars p.data⟩

def pathIsAbsolute (p : String) : Bool := isAbsC p.data

def jsStartsWith (s pre : String) : Bool := isPrefixOfC pre.data s.data

def jsIncludes (s sub : String) : Bool := infixOfC sub.data s.data

def jsTrim (s : String) : String :=
  ⟨((s.data.dropWhile Char.isWhitespace).reverse.dropWhile Char.isWhitespace).reverse⟩

def jsSplit (sep : Char) (s : String) : List String :=
  (splitOnChar sep s.data).map (fun l => ⟨l⟩)

/-- JS `filePath.replace(/\\/g, '/')`. -/
def replaceBackslashes (s : String) : String :=
  ⟨s.data.map (fun c => if c = '\\' then '/' else c)⟩

/-! ### `staticAnalyzer.js` — path helper functions -/

/-- `safeJoinPath(baseDir, ...subPaths)` (staticAnalyzer.js lines 19-29):
join, resolve, and accept only results equal to or strictly below the
resolved base; otherwise throw a `Path Error`. -/
def safeJoinPath (cwd base : String) (subPaths : List String) : Except String String :=
  let rawJoinedPath := pathJoin (base :: subPaths)
  let resolvedPath := pathResolve cwd rawJoinedPath
  let resolvedBaseDir := pathResolve cwd base
  if jsStartsWith resolvedPath (resolvedBaseDir ++ "/") = true ∨ resolvedPath = resolvedBaseDir then
    .ok resolvedPath
  else
    .error "Path Error: attempted to access a path outside the allowed base directory"

/-- The `/^[a-zA-Z]:\//` Windows-drive test of `normalizeAndRelativizePath`. -/
def winDrive (s : String) : Bool :=
  match s.data with
  | a :: b :: c :: _ => a.isAlpha && b = ':' && c = '/'
  | _ => false

/-- `normalizeAndRelativizePath(filePath, baseDirectory, allowOutside)`
(staticAnalyzer.js lines 39-78). -/
def normalizeAndRelativizePath (cwd : String) (filePath baseDirectory : String)
    (allowOutside : Bool) : String :=
  if filePath = "" then "unknown"
  else
    let normalizedFilePath := replaceBackslashes filePath
    let normalizedBaseDirectory := replaceBackslashes baseDirectory
    let isWindowsAbsoluteWithDrive := winDrive normalizedFilePath
    let isEffectivelyAbsolute :=
      isWindowsAbsoluteWithDrive || jsStartsWith normalizedFilePath "/"
    if isEffectivelyAbsolute = true then
      let relativePath :=
        replaceBackslashes (pathRelative cwd normalizedBaseDirectory normalizedFilePath)
      let stillLooksAbsoluteWindows := winDrive relativePath
      if jsStartsWith relativePath "../" = true ∨
          (stillLooksAbsoluteWindows = true ∧ relativePath = normalizedFilePath) then
        if allowOutside = false then pathBasename normalizedFilePath
        else normalizedFilePath
      else if relativePath = "" then "." else relativePath
    else normalizedFilePath

/-- `validatePmdRulesetPath(rulesetPath, baseDir)` (staticAnalyzer.js lines
88-114).  `baseDir` is accepted but, as in the source, never used. -/
def validatePmdRulesetPath (rulesetPath : String) (_baseDir : String) : Except String String :=
  let trimmedPath := jsTrim rulesetPath
  let isUrl := jsStartsWith trimmedPath "http://" || jsStartsWith trimmedPath "https://"
  let isPmdCategory := jsStartsWith trimmedPath "category/"
  if isUrl || isPmdCategory then .ok trimmedPath
  else if pathIsAbsolute trimmedPath then
    .error "Path Error: absolute PMD ruleset path is not allowed"
  else if jsIncludes trimmedPath ".." then
    .error "Path Error: path traversal in PMD ruleset path is not allowed"
  else .ok trimmedPath

/-! ### `runPMD` — ruleset resolution and command construction

`runPMD` (staticAnalyzer.js lines 589-640) resolves the ruleset option
purely before any process is spawned: the external tool is invoked only
after the command string below has been built, so a validation error means
no invocation. -/

def defaultPmdRulesets : String := "category/java/bestpractices.xml,category/java/errorprone.xml"

/-- JS `Array.prototype.map` over `validatePmdRulesetPath` with exception
semantics: the first entry that throws aborts the whole map. -/
def validatePmdList (directory : String) : List String → Except String (List String)
  | [] => .ok []
  | p :: rest =>
    match validatePmdRulesetPath p directory with
    | .error e => .error e
    | .ok v =>
      match validatePmdList directory rest with
      | .error e => .error e
      | .ok vs => .ok (v :: vs)

/-- The ruleset-resolution block of `runPMD` (lines 592-606). -/
def resolvePmdRulesets (directory : String) (customRulesets : Option String) :
    Except String String :=
  match customRulesets with
  | none => .ok defaultPmdRulesets
  | some s =>
    let customRulesetStr := jsTrim s
    if customRulesetStr = "" then .ok defaultPmdRulesets
    else
      match validatePmdList directory (jsSplit ',' customRulesetStr) with
      | .error e => .error e
      | .ok validated =>
        let validatedPaths := validated.filter (fun p => p ≠ "")
        if validatedPaths ≠ [] then .ok (joinWithChar ',' (validatedPaths.map String.data) |> (⟨·⟩))
        else .ok defaultPmdRulesets

/-- The PMD command line of `runPMD` (line 608); building it is the last
step before `execPromise`, so an `error` here is a failure prior to any
process invocation. -/
def runPMDCommand (pmdPath directory : String) (customRulesets : Option String) :
    Except String String :=
  (resolvePmdRulesets directory customRulesets).map
    (fun rulesetOption =>
      pmdPath ++ " check -d \"" ++ directory ++ "\" -R \"" ++ rulesetOption ++ "\" -f json")

/-! ### `_determineRemoteBranch` (staticAnalyzer.js lines 283-314)

`git.listRemote(['--heads', 'origin'])` yields one raw string of the form
`"<sha>\trefs/heads/<name>\n"` per branch; the source then uses
`String.prototype.includes` — a substring test — on that raw string. -/

/-- One line of `git ls-remote --heads origin` output for branch `b`. -/
def refLine (b : List Char) : List Char :=
  ("0000000000000000000000000000000000000000\t").data ++ ("refs/heads/").data ++ b ++ ['\n']

def listRemoteChars : List (List Char) → List Char
  | [] => []
  | b :: bs => refLine b ++ listRemoteChars bs

/-- The raw `listRemote` output for a remote whose branches are `branches`. -/
def listRemoteOutput (branches : List String) : String :=
  ⟨listRemoteChars (branches.map String.data)⟩

/-- The branch-selection logic of `_determineRemoteBranch`, applied to the
raw `listRemote` output (`remoteBranches` in the source). -/
def determineRemoteBranch (remoteBranches desiredBranch : String) : Except String String :=
  if jsIncludes remoteBranches ("refs/heads/" ++ desiredBranch) then .ok desiredBranch
  else if jsIncludes remoteBranches "refs/heads/main" then .ok "main"
  else if jsIncludes remoteBranches "refs/heads/master" then .ok "master"
  else .error "Failed to verify remote branches: cannot find a suitable branch"

/-! ### Sparse checkout engine and orchestrator (file-system effects)

`sparseCheckout` (staticAnalyzer.js lines 350-395) runs seven effectful
transitions in sequence inside a `try`; its `catch` block logs and
re-throws a wrapped error and performs no file-system removal (the comment
at line 390 defers cleanup to `analyzeCode`).  `analyzeCode` (lines
134-188) creates the workspace, runs the pipeline, and removes the
workspace in its `finally` block on every exit path (the removal itself
may fail, which only logs a warning).  We track the one observable the
claims are about: whether the workspace directory exists on disk. -/

inductive CkStep
  | gitInit
  | addRemote
  | configSparse
  | writePatterns
  | resolveBranch
  | fetch
  | checkout
deriving DecidableEq, Repr

/-- The transitions of `sparseCheckout`, in source order. -/
def ckStepList : List CkStep :=
  [.gitInit, .addRemote, .configSparse, .writePatterns, .resolveBranch, .fetch, .checkout]

structure FSState where
  workspaceExists : Bool
deriving DecidableEq, Repr

/-- Run the transitions until the first failure (`fails` is the
environment: which git/fs operations throw). -/
def runCkSteps (fails : CkStep → Bool) : List CkStep → Except CkStep Unit
  | [] => .ok ()
  | s :: rest => if fails s then .error s else runCkSteps fails rest

/-- `sparseCheckout`: on success resolves with the directory path; on any
transition failure re-throws a wrapped error.  Neither branch touches the
workspace directory, so the file-system state is returned unchanged. -/
def sparseCheckoutModel (fails : CkStep → Bool) (dir : String) (st : FSState) :
    Except String String × FSState :=
  match runCkSteps fails ckStepList with
  | .ok _ => (.ok dir, st)
  | .error _ => (.error "Repository sparse checkout failed", st)

/-- `analyzeCode`: make the temp workspace, run checkout then the analyzer,
and in `finally` remove the workspace (unless the removal itself fails,
modelled by `rmFails`). -/
def analyzeCodeModel (fails : CkStep → Bool) (analyzerFails rmFails : Bool)
    (dir : String) : Except String String × FSState :=
  let st0 : FSState := ⟨true⟩
  let afterCheckout := sparseCheckoutModel fails dir st0
  let afterRun : Except String String × FSState :=
    match afterCheckout with
    | (.error e, st) => (.error ("Static analysis failed: " ++ e), st)
    | (.ok d, st) =>
      if analyzerFails then (.error "Static analysis failed: analyzer error", st)
      else (.ok d, st)
  (afterRun.1, if rmFails then afterRun.2 else ⟨false⟩)

/-! ### Result standardization (staticAnalyzer.js lines 715-846) -/

inductive Severity
  | error
  | warning
  | info
deriving DecidableEq, Repr

/-- The standardized issue record pushed by `standardizeResults`. -/
structure Issue where
  file : String
  line : Option Int
  column : Option Int
  severity : Severity
  rule : String
  message : String
deriving DecidableEq, Repr

structure Summary where
  errorCount : Int
  warningCount : Int
  fileCount : Int
deriving DecidableEq, Repr

structure StandardResults where
  tool : String
  summary : Summary
  issues : List Issue
deriving DecidableEq, Repr

/-- One entry of ESLint's JSON output (`message.line` etc. may be absent). -/
structure EslintMessage where
  line : Option Int
  column : Option Int
  severity : Int
  ruleId : Option String
  message : String
deriving DecidableEq, Repr

/-- One per-file record of ESLint's JSON output, with the tool's own
self-reported per-file totals. -/
structure EslintFile where
  filePath : String
  errorCount : Int
  warningCount : Int
  messages : List EslintMessage
deriving DecidableEq, Repr

/-- `message.severity === 2 ? 'error' : 'warning'` (line 740). -/
def eslintSeverity (s : Int) : Severity := if s = 2 then .error else .warning

/-- `message.ruleId || 'unknown'` (line 741). -/
def eslintRuleName : Option String → String
  | some r => if r = "" then "unknown" else r
  | none => "unknown"

/-- The final filter of `standardizeResults` (lines 839-843), applied to
every language's issue list: keep an issue iff its file is truthy and not
`'unknown'`, its file does not contain the substring `node_modules`, and
its line is present and strictly positive. -/
def keepIssue (i : Issue) : Bool :=
  decide (i.file ≠ "") && decide (i.file ≠ "unknown") &&
    !(jsIncludes i.file "node_modules") &&
    (match i.line with
     | some n => decide (0 < n)
     | none => false)

def applyFinalFilter (issues : List Issue) : List Issue := issues.filter keepIssue

/-- The issues pushed for one ESLint file entry (lines 733-745). -/
def eslintIssuesOfFile (cwd baseDirectory : String) (f : EslintFile) : List Issue :=
  let relativeFilePath := normalizeAndRelativizePath cwd f.filePath baseDirectory false
  f.messages.map (fun m =>
    { file := relativeFilePath
      line := m.line
      column := m.column
      severity := eslintSeverity m.severity
      rule := eslintRuleName m.ruleId
      message := m.message })

def eslintRawIssues (cwd baseDirectory : String) (files : List EslintFile) : List Issue :=
  files.flatMap (eslintIssuesOfFile cwd baseDirectory)

/-- The ESLint summary (lines 730-732): the per-file totals reported by the
tool itself are summed, and `fileCount` is the number of file entries. -/
def eslintSummary (files : List EslintFile) : Summary :=
  { errorCount := (files.map (fun f => f.errorCount)).foldl (· + ·) 0
    warningCount := (files.map (fun f => f.warningCount)).foldl (· + ·) 0
    fileCount := (files.length : Int) }

/-- The `javascript` / `typescript` branch of `standardizeResults`
(lines 726-748) followed by the shared final filter (lines 839-843). -/
def standardizeESLint (cwd baseDirectory : String) (files : List EslintFile) :
    StandardResults :=
  { tool := "ESLint"
    summary := eslintSummary files
    issues := applyFinalFilter (eslintRawIssues cwd baseDirectory files) }

/-- `getSeverityFromPriority(priority)` (lines 857-862).  `some n` models a
numeric PMD priority; `none` models a value whose `parseInt` is `NaN`, for
which both `NaN <= 2` and `NaN <= 4` are false, so the result is `'info'`. -/
def getSeverityFromPriority : Option Int → Severity
  | some priority => if priority ≤ 2 then .error else if priority ≤ 4 then .warning else .info
  | none => .info

/-! ### Auxiliary notions for the proofs -/

/-- A component that Node's normalization neither drops nor interprets. -/
def plainSeg (s : Seg) : Prop := s ≠ [] ∧ s ≠ ['.'] ∧ s ≠ ['.', '.']

/-- A component that can appear on the stack of an absolute-path
normalization: plain and free of separators. -/
def stackSeg (s : Seg) : Prop := plainSeg s ∧ '/' ∉ s

/-- All components of the list can appear in a resolved absolute path. -/
def stackSegs (L : List Seg) : Prop := ∀ s ∈ L, stackSeg s

/-- Components containing no backslash (so JS `replace(/\\/g, '/')` is the
identity on the joined path). -/
def noBS (L : List Seg) : Prop := ∀ s ∈ L, '\\' ∉ s

instance (s : Seg) : Decidable (plainSeg s) := by unfold plainSeg; infer_instance

instance (s : Seg) : Decidable (stackSeg s) := by unfold stackSeg; infer_instance

instance (L : List Seg) : Decidable (stackSegs L) := by unfold stackSegs; infer_instance

instance (L : List Seg) : Decidable (noBS L) := by unfold noBS; infer_instance

/-- Drop the most recent component of a normalization stack (the effect of
`".."` on a nonempty absolute stack; on an empty absolute stack `".."` is
ignored). -/
def popSeg : List Seg → List Seg
  | [] => []
  | _ :: t => t

/-- The canonical string of an absolute path with components `L`: what
`path.resolve` returns. -/
def canonicalAbs (L : List Seg) : String := ⟨'/' :: joinSegs L⟩

/-! ## Lemmas about the split / join primitives -/

theorem splitOnChar_ne_nil (sep : Char) (l : List Char) : splitOnChar sep l ≠ [] := by
  induction l with
  | nil => simp [splitOnChar]
  | cons c cs ih =>
    by_cases h : c = sep
    · simp [splitOnChar, h]
    · simp only [splitOnChar, if_neg h]
      cases hs : splitOnChar sep cs with
      | nil => exact absurd hs ih
      | cons a t => simp [consHead]

theorem consHead_append (c : Char) (L R : List Seg) (h : L ≠ []) :
    consHead c (L ++ R) = consHead c L ++ R := by
  cases L with
  | nil => exact absurd rfl h
  | cons a t => simp [consHead]

theorem splitOnChar_cons_ne (sep c : Char) (l : List Char) (h : c ≠ sep) :
    splitOnChar sep (c :: l) = consHead c (splitOnChar sep l) := by
  simp [splitOnChar, h]

theorem splitOnChar_append_sep (sep : Char) (x y : List Char) :
    splitOnChar sep (x ++ sep :: y) = splitOnChar sep x ++ splitOnChar sep y := by
  induction x with
  | nil => simp [splitOnChar]
  | cons c cs ih =>
    by_cases h : c = sep
    · simp [splitOnChar, h, ih]
    · rw [List.cons_append, splitOnChar_cons_ne sep c (cs ++ sep :: y) h,
        splitOnChar_cons_ne sep c cs h, ih,
        consHead_append c _ _ (splitOnChar_ne_nil sep cs)]

theorem splitOnChar_no_sep (sep : Char) (l : List Char) (h : sep ∉ l) :
    splitOnChar sep l = [l] := by
  induction l with
  | nil => rfl
  | cons c cs ih =>
    have hc : c ≠ sep := fun hcs => h (hcs ▸ List.mem_cons_self c cs)
    have hcs : sep ∉ cs := fun hm => h (List.mem_cons_of_mem c hm)
    simp [splitOnChar, if_neg hc, ih hcs, consHead]

theorem no_sep_of_mem_splitOnChar (sep : Char) (l : List Char) (s : Seg)
    (hs : s ∈ splitOnChar sep l) : sep ∉ s := by
  induction l generalizing s with
  | nil =>
    simp only [splitOnChar, List.mem_singleton] at hs
    subst hs; exact List.not_mem_nil sep
  | cons c cs ih =>
    by_cases h : c = sep
    · simp only [splitOnChar, if_pos h, List.mem_cons] at hs
      rcases hs with hs | hs
      · subst hs; exact List.not_mem_nil sep
      · exact ih s hs
    · simp only [splitOnChar, if_neg h] at hs
      cases hsp : splitOnChar sep cs with
      | nil => exact absurd hsp (splitOnChar_ne_nil sep cs)
      | cons a t =>
        rw [hsp] at hs
        simp only [consHead, List.mem_cons] at hs
        rcases hs with hs | hs
        · subst hs
          intro hmem
          rcases List.mem_cons.mp hmem with h1 | h1
          · exact h h1.symm
          · exact ih a (hsp ▸ List.mem_cons_self a t) h1
        · exact ih s (hsp ▸ List.mem_cons_of_mem a hs)

theorem joinWithChar_cons (sep : Char) (s : Seg) (R : List Seg) (h : R ≠ []) :
    joinWithChar sep (s :: R) = s ++ sep :: joinWithChar sep R := by
  cases R with
  | nil => exact absurd rfl h
  | cons a t => rfl

theorem joinSegs_cons (s : Seg) (R : List Seg) (h : R ≠ []) :
    joinSegs (s :: R) = s ++ '/' :: joinSegs R :=
  joinWithChar_cons '/' s R h

theorem splitOnChar_joinWithChar (sep : Char) (L : List Seg) (hne : L ≠ [])
    (hsep : ∀ s ∈ L, sep ∉ s) : splitOnChar sep (joinWithChar sep L) = L := by
  induction L with
  | nil => exact absurd rfl hne
  | cons s rest ih =>
    cases rest with
    | nil =>
      show splitOnChar sep (joinWithChar sep [s]) = [s]
      exact splitOnChar_no_sep sep s (hsep s (List.mem_singleton.mpr rfl))
    | cons a t =>
      rw [joinWithChar_cons sep s (a :: t) (by simp)]
      rw [splitOnChar_append_sep]
      rw [splitOnChar_no_sep sep s (hsep s (List.mem_cons_self s _))]
      rw [ih (by simp) (fun x hx => hsep x (List.mem_cons_of_mem s hx))]
      rfl

theorem splitSegs_joinSegs (L : List Seg) (hne : L ≠ []) (hsep : ∀ s ∈ L, '/' ∉ s) :
    splitSegs (joinSegs L) = L :=
  splitOnChar_joinWithChar '/' L hne hsep

theorem joinWithChar_ne_nil (sep : Char) (L : List Seg) (hne : L ≠ [])
    (h : ∀ s ∈ L, s ≠ []) : joinWithChar sep L ≠ [] := by
  cases L with
  | nil => exact absurd rfl hne
  | cons s rest =>
    cases rest with
    | nil => exact h s (List.mem_singleton.mpr rfl)
    | cons a t =>
      rw [joinWithChar_cons sep s (a :: t) (by simp)]
      intro hc
      have := List.append_eq_nil.mp hc
      simp at this

theorem joinSegs_ne_nil (L : List Seg) (hne : L ≠ []) (h : ∀ s ∈ L, s ≠ []) :
    joinSegs L ≠ [] :=
  joinWithChar_ne_nil '/' L hne h

theorem mem_joinWithChar (sep : Char) (L : List Seg) (c : Char)
    (hc : c ∈ joinWithChar sep L) : c = sep ∨ ∃ s ∈ L, c ∈ s := by
  induction L with
  | nil => simp [joinWithChar] at hc
  | cons s rest ih =>
    cases rest with
    | nil =>
      right; exact ⟨s, List.mem_singleton.mpr rfl, hc⟩
    | cons a t =>
      rw [joinWithChar_cons sep s (a :: t) (by simp)] at hc
      rcases List.mem_append.mp hc with h1 | h1
      · right; exact ⟨s, List.mem_cons_self s _, h1⟩
      · rcases List.mem_cons.mp h1 with h2 | h2
        · left; exact h2
        · rcases ih h2 with h3 | ⟨x, hx, hcx⟩
          · left; exact h3
          · right; exact ⟨x, List.mem_cons_of_mem s hx, hcx⟩

theorem not_mem_joinSegs (L : List Seg) (c : Char) (hc : c ≠ '/')
    (h : ∀ s ∈ L, c ∉ s) : c ∉ joinSegs L := by
  intro hmem
  rcases mem_joinWithChar '/' L c hmem with h1 | ⟨s, hs, hcs⟩
  · exact hc h1
  · exact h s hs hcs

theorem joinWithChar_append_parts (sep : Char) (L R : List Seg) (hL : L ≠ []) (hR : R ≠ []) :
    joinWithChar sep (L ++ R) = joinWithChar sep L ++ sep :: joinWithChar sep R := by
  induction L with
  | nil => exact absurd rfl hL
  | cons s rest ih =>
    cases rest with
    | nil =>
      rw [List.singleton_append, joinWithChar_cons sep s R hR]
      rfl
    | cons a t =>
      rw [List.cons_append, joinWithChar_cons sep s ((a :: t) ++ R) (by simp),
        joinWithChar_cons sep s (a :: t) (by simp), ih (by simp)]
      simp

theorem joinSegs_append_parts (L R : List Seg) (hL : L ≠ []) (hR : R ≠ []) :
    joinSegs (L ++ R) = joinSegs L ++ '/' :: joinSegs R :=
  joinWithChar_append_parts '/' L R hL hR

/-! ## Lemmas about Node's component normalization -/

theorem normStep_skip_nil (ab : Bool) (acc : List Seg) : normStep ab acc [] = acc := by
  simp [normStep]

theorem normStep_skip_dot (ab : Bool) (acc : List Seg) : normStep ab acc ['.'] = acc := by
  simp [normStep]

theorem normStep_push (ab : Bool) (acc : List Seg) (s : Seg) (h : plainSeg s) :
    normStep ab acc s = s :: acc := by
  obtain ⟨h1, h2, h3⟩ := h
  simp [normStep, h1, h2, h3]

theorem normStep_pop (acc : List Seg) (h : ∀ s ∈ acc, stackSeg s) :
    normStep false acc ['.', '.'] = popSeg acc := by
  cases acc with
  | nil => simp [normStep, popSeg]
  | cons a t =>
    have ha : a ≠ ['.', '.'] := (h a (List.mem_cons_self a t)).1.2.2
    simp [normStep, popSeg, ha]

theorem foldl_normStep_push_all (ab : Bool) (L : List Seg) (acc : List Seg)
    (h : ∀ s ∈ L, plainSeg s) :
    List.foldl (normStep ab) acc L = L.reverse ++ acc := by
  induction L generalizing acc with
  | nil => rfl
  | cons s rest ih =>
    rw [List.foldl_cons, normStep_push ab acc s (h s (List.mem_cons_self s rest)),
      ih (s :: acc) (fun x hx => h x (List.mem_cons_of_mem s hx))]
    simp

theorem goodStack_popSeg (acc : List Seg) (h : ∀ s ∈ acc, stackSeg s) :
    ∀ s ∈ popSeg acc, stackSeg s := by
  cases acc with
  | nil => simp [popSeg]
  | cons a t => exact fun s hs => h s (List.mem_cons_of_mem a (by simpa [popSeg] using hs))

theorem goodStack_normStep (acc : List Seg) (s : Seg) (hs : '/' ∉ s)
    (h : ∀ x ∈ acc, stackSeg x) : ∀ x ∈ normStep false acc s, stackSeg x := by
  by_cases h1 : s = [] ∨ s = ['.']
  · intro x hx
    rcases h1 with h1 | h1 <;> (subst h1; simp [normStep] at hx; exact h x hx)
  · push_neg at h1
    by_cases h2 : s = ['.', '.']
    · subst h2
      rw [normStep_pop acc h]
      exact goodStack_popSeg acc h
    · rw [normStep_push false acc s ⟨h1.1, h1.2, h2⟩]
      intro x hx
      rcases List.mem_cons.mp hx with h3 | h3
      · subst h3; exact ⟨⟨h1.1, h1.2, h2⟩, hs⟩
      · exact h x h3

theorem goodStack_foldl (L : List Seg) (acc : List Seg) (hL : ∀ s ∈ L, '/' ∉ s)
    (hacc : ∀ x ∈ acc, stackSeg x) :
    ∀ x ∈ List.foldl (normStep false) acc L, stackSeg x := by
  induction L generalizing acc with
  | nil => exact hacc
  | cons s rest ih =>
    rw [List.foldl_cons]
    exact ih (normStep false acc s)
      (fun x hx => hL x (List.mem_cons_of_mem s hx))
      (goodStack_normStep acc s (hL s (List.mem_cons_self s rest)) hacc)

theorem goodStack_normStack (l : List Char) :
    ∀ x ∈ normStack false (splitSegs l), stackSeg x :=
  goodStack_foldl (splitSegs l) []
    (fun s hs => no_sep_of_mem_splitOnChar '/' l s hs) (by simp)

/-! ## Canonical absolute paths -/

theorem splitSegs_canonical (L : List Seg) (hne : L ≠ []) (hsep : ∀ s ∈ L, '/' ∉ s) :
    splitSegs ('/' :: joinSegs L) = [] :: L := by
  show splitOnChar '/' ('/' :: joinSegs L) = [] :: L
  rw [splitOnChar]
  rw [show splitOnChar '/' (joinSegs L) = splitSegs (joinSegs L) from rfl,
    splitSegs_joinSegs L hne hsep]
  simp

theorem resolveSegs_canonical (cwd : List Char) (L : List Seg) (h : stackSegs L) :
    resolveSegs cwd ('/' :: joinSegs L) = L := by
  have habs : isAbsC ('/' :: joinSegs L) = true := rfl
  cases hL : L with
  | nil => simp [resolveSegs, habs, joinSegs, joinWithChar, splitSegs, splitOnChar,
      normSegs, normStack, normStep, consHead]
  | cons a t =>
    rw [← hL]
    unfold resolveSegs
    simp only [habs, if_true]
    rw [splitSegs_canonical L (by rw [hL]; simp) (fun s hs => (h s hs).2)]
    unfold normSegs normStack
    rw [List.foldl_cons, normStep_skip_nil,
      foldl_normStep_push_all false L [] (fun s hs => (h s hs).1)]
    simp

theorem resolveChars_canonical (cwd : List Char) (L : List Seg) (h : stackSegs L) :
    resolveChars cwd ('/' :: joinSegs L) = '/' :: joinSegs L := by
  unfold resolveChars
  rw [resolveSegs_canonical cwd L h]

theorem canonical_inj (A B : List Seg) (hA : stackSegs A) (hB : stackSegs B)
    (h : joinSegs A = joinSegs B) : A = B := by
  cases hAe : A with
  | nil =>
    subst hAe
    cases hBe : B with
    | nil => rfl
    | cons b t =>
      exfalso
      apply joinSegs_ne_nil B (by rw [hBe]; simp) (fun s hs => (hB s hs).1.1)
      rw [← h]; rfl
  | cons a t =>
    rw [← hAe]
    have hAne : A ≠ [] := by rw [hAe]; simp
    cases hBe : B with
    | nil =>
      exfalso
      apply joinSegs_ne_nil A hAne (fun s hs => (hA s hs).1.1)
      rw [h, hBe]; rfl
    | cons b u =>
      rw [← hBe]
      have hBne : B ≠ [] := by rw [hBe]; simp
      have := congrArg splitSegs h
      rwa [splitSegs_joinSegs A hAne (fun s hs => (hA s hs).2),
        splitSegs_joinSegs B hBne (fun s hs => (hB s hs).2)] at this

/-! ## Prefix reasoning on canonical paths -/

theorem isPrefixOf_iff_exists (a b : List Char) :
    a.isPrefixOf b = true ↔ ∃ t, b = a ++ t := by
  induction a generalizing b with
  | nil => simp [List.isPrefixOf]
  | cons c cs ih =>
    cases b with
    | nil => simp [List.isPrefixOf]
    | cons d ds =>
      simp only [List.isPrefixOf, Bool.and_eq_true, beq_iff_eq, ih]
      constructor
      · rintro ⟨rfl, t, rfl⟩
        exact ⟨t, rfl⟩
      · rintro ⟨t, ht⟩
        rw [List.cons_append] at ht
        injection ht with h1 h2
        exact ⟨h1.symm, t, h2⟩

theorem seg_slash_prefix_iff (b p : Seg) (u v : List Char) (hb : '/' ∉ b) (hp : '/' ∉ p) :
    (b ++ '/' :: u).isPrefixOf (p ++ '/' :: v) = true ↔ b = p ∧ u.isPrefixOf v = true := by
  induction b generalizing p with
  | nil =>
    cases p with
    | nil => simp [List.isPrefixOf]
    | cons q p1 =>
      have hq : q ≠ '/' := fun hq => hp (hq ▸ List.mem_cons_self q p1)
      simp [List.isPrefixOf, Ne.symm hq]
  | cons c b1 ih =>
    have hc : c ≠ '/' := fun hc => hb (hc ▸ List.mem_cons_self c b1)
    cases p with
    | nil => simp [List.isPrefixOf, hc]
    | cons q p1 =>
      have hb1 : '/' ∉ b1 := fun hm => hb (List.mem_cons_of_mem c hm)
      have hp1 : '/' ∉ p1 := fun hm => hp (List.mem_cons_of_mem q hm)
      show (c == q && (b1 ++ '/' :: u).isPrefixOf (p1 ++ '/' :: v)) = true ↔ _
      rw [Bool.and_eq_true, beq_iff_eq, ih p1 hb1 hp1, List.cons.injEq, and_assoc]

theorem seg_slash_prefix_short (b p : Seg) (u : List Char) (hp : '/' ∉ p) :
    (b ++ '/' :: u).isPrefixOf p = false := by
  induction b generalizing p with
  | nil =>
    cases p with
    | nil => rfl
    | cons q p1 =>
      have hq : q ≠ '/' := fun hq => hp (hq ▸ List.mem_cons_self q p1)
      simp [List.isPrefixOf, Ne.symm hq]
  | cons c b1 ih =>
    cases p with
    | nil => rfl
    | cons q p1 =>
      have hp1 : '/' ∉ p1 := fun hm => hp (List.mem_cons_of_mem q hm)
      simp [List.isPrefixOf, ih p1 hp1]

/-- For canonical absolute paths, the source's
`resolvedPath.startsWith(resolvedBaseDir + path.sep)` test holds exactly
when the components of the base are a strict prefix of the components of
the path.  (For `B = []`, i.e. a base resolving to `"/"`, the test is
always false, because no canonical path starts with `"//"`.) -/
theorem canonical_strict_prefix_iff (B P : List Seg) (hB : stackSegs B) (hP : stackSegs P)
    (hBne : B ≠ []) :
    isPrefixOfC (('/' :: joinSegs B) ++ ['/']) ('/' :: joinSegs P) = true ↔
      ∃ r, r ≠ [] ∧ P = B ++ r := by
  show (('/' :: joinSegs B) ++ ['/']).isPrefixOf ('/' :: joinSegs P) = true ↔ _
  rw [show (('/' :: joinSegs B) ++ ['/']) = '/' :: (joinSegs B ++ ['/']) from rfl]
  rw [show (('/' :: (joinSegs B ++ ['/'])).isPrefixOf ('/' :: joinSegs P)) =
      ((joinSegs B ++ ['/']).isPrefixOf (joinSegs P)) by simp [List.isPrefixOf]]
  induction B generalizing P with
  | nil => exact absurd rfl hBne
  | cons b B1 ih =>
    have hbseg : stackSeg b := hB b (List.mem_cons_self b B1)
    cases P with
    | nil =>
      constructor
      · intro h
        exfalso
        rcases (isPrefixOf_iff_exists _ _).mp h with ⟨t, ht⟩
        have : joinSegs (b :: B1) ++ ['/'] ++ t = [] := ht.symm
        simp [joinSegs] at this
      · rintro ⟨r, hr, habs⟩
        exact absurd habs (by simp)
    | cons p P1 =>
      have hpseg : stackSeg p := hP p (List.mem_cons_self p P1)
      cases hB1 : B1 with
      | nil =>
        -- base has a single component `b`
        cases hP1 : P1 with
        | nil =>
          -- path also a single component: never a strict extension
          rw [show joinSegs [b] ++ ['/'] = b ++ '/' :: [] from rfl,
            show joinSegs [p] = p from rfl]
          rw [seg_slash_prefix_short b p [] hpseg.2]
          simp
        | cons q P2 =>
          rw [show joinSegs [b] ++ ['/'] = b ++ '/' :: [] from rfl,
            joinSegs_cons p (q :: P2) (by simp)]
          rw [seg_slash_prefix_iff b p [] (joinSegs (q :: P2)) hbseg.2 hpseg.2]
          constructor
          · rintro ⟨rfl, -⟩
            exact ⟨q :: P2, by simp, rfl⟩
          · rintro ⟨r, hr, hPr⟩
            rw [List.singleton_append] at hPr
            injection hPr with h1 h2
            subst h1
            simp [List.isPrefixOf]
      | cons b2 B2 =>
        rw [← hB1]
        have hB1ne : B1 ≠ [] := by rw [hB1]; simp
        cases hP1 : P1 with
        | nil =>
          -- path has one component but base has at least two: length contradiction
          rw [joinSegs_cons b B1 hB1ne, show joinSegs [p] = p from rfl]
          rw [show (b ++ '/' :: joinSegs B1) ++ ['/'] = b ++ '/' :: (joinSegs B1 ++ ['/'])
            by simp]
          rw [seg_slash_prefix_short b p (joinSegs B1 ++ ['/']) hpseg.2]
          constructor
          · intro h; exact absurd h (by simp)
          · rintro ⟨r, hr, hPr⟩
            injection hPr with h1 h2
            exact absurd h2.symm (by simp [hB1])
        | cons q P2 =>
          rw [← hP1]
          have hP1ne : P1 ≠ [] := by rw [hP1]; simp
          rw [joinSegs_cons b B1 hB1ne, joinSegs_cons p P1 hP1ne]
          rw [show (b ++ '/' :: joinSegs B1) ++ ['/'] = b ++ '/' :: (joinSegs B1 ++ ['/'])
            by simp]
          rw [seg_slash_prefix_iff b p (joinSegs B1 ++ ['/']) (joinSegs P1) hbseg.2 hpseg.2]
          have ihB1 := ih P1 (fun s hs => hB s (List.mem_cons_of_mem b hs))
            (fun s hs => hP s (List.mem_cons_of_mem p hs)) hB1ne
          rw [ihB1]
          constructor
          · rintro ⟨rfl, r, hr, hPr⟩
            exact ⟨r, hr, by rw [hPr]; rfl⟩
          · rintro ⟨r, hr, hPr⟩
            rw [List.cons_append] at hPr
            injection hPr with h1 h2
            exact ⟨h1.symm, r, hr, h2⟩

/-! ## Trailing separators -/

theorem endsSlash_append (L R : List Char) (hR : R ≠ []) :
    endsSlash (L ++ R) = endsSlash R := by
  unfold endsSlash
  rw [List.reverse_append]
  cases hRr : R.reverse with
  | nil => exact absurd (by simpa using hRr) hR
  | cons c t => simp

theorem endsSlash_no_slash (l : List Char) (h : '/' ∉ l) : endsSlash l = false := by
  unfold endsSlash
  cases hr : l.reverse with
  | nil => rfl
  | cons c t =>
    have : c ∈ l := by
      have : c ∈ l.reverse := by rw [hr]; exact List.mem_cons_self c t
      simpa using this
    simp only [decide_eq_false_iff_not]
    exact fun hc => h (hc ▸ this)

theorem endsSlash_joinSegs (L : List Seg) (h : stackSegs L) :
    endsSlash (joinSegs L) = false := by
  induction L with
  | nil => rfl
  | cons s rest ih =>
    cases hr : rest with
    | nil => exact endsSlash_no_slash s (h s (List.mem_cons_self s rest)).2
    | cons a t =>
      have hrne : rest ≠ [] := by rw [hr]; simp
      have hrest : stackSegs rest := fun x hx => h x (List.mem_cons_of_mem s hx)
      have hjoin : joinSegs rest ≠ [] :=
        joinSegs_ne_nil rest hrne (fun x hx => (hrest x hx).1.1)
      rw [← hr, joinSegs_cons s rest hrne,
        endsSlash_append s ('/' :: joinSegs rest) (by simp),
        show ('/' :: joinSegs rest) = ['/'] ++ joinSegs rest from rfl,
        endsSlash_append ['/'] (joinSegs rest) hjoin]
      exact ih hrest

/-! ## Common prefixes of component lists -/

theorem commonPrefixLen_self_append (l r : List Seg) :
    commonPrefixLen l (l ++ r) = l.length := by
  induction l with
  | nil => cases r <;> rfl
  | cons a t ih => simp [commonPrefixLen, ih]

/-! ## Normalization versus resolution of absolute paths -/

theorem isAbsC_append (l r : List Char) (h : l ≠ []) : isAbsC (l ++ r) = isAbsC l := by
  cases l with
  | nil => exact absurd rfl h
  | cons c t => rfl

theorem isAbsC_slash (l : List Char) : isAbsC ('/' :: l) = true := by
  simp [isAbsC]

theorem splitSegs_cons_slash (l : List Char) : splitSegs ('/' :: l) = [] :: splitSegs l := by
  simp [splitSegs, splitOnChar]

theorem string_ne_of_data_ne (x y : List Char) (h : x ≠ y) :
    (⟨x⟩ : String) ≠ (⟨y⟩ : String) := by
  intro hc
  exact h (by injection hc)

theorem normalizeChars_abs (p : List Char) (habs : isAbsC p = true)
    (htrail : endsSlash p = false) :
    normalizeChars p = '/' :: joinSegs (normSegs false (splitSegs p)) := by
  have hp : p ≠ [] := by
    intro h; subst h; simp [isAbsC] at habs
  simp [normalizeChars, hp, habs, htrail]

theorem resolveSegs_abs (cwd p : List Char) (habs : isAbsC p = true) :
    resolveSegs cwd p = normSegs false (splitSegs p) := by
  unfold resolveSegs
  rw [habs]
  simp

/-- Resolving the normalization of an absolute path gives the same result
as resolving the path itself (Node's `resolve` strips the trailing slash
that `normalize` preserves). -/
theorem resolve_normalize_abs (cwd p : List Char) (habs : isAbsC p = true) :
    resolveChars cwd (normalizeChars p) = resolveChars cwd p := by
  set S := normStack false (splitSegs p) with hS
  have hgood : ∀ x ∈ S, stackSeg x := goodStack_normStack p
  have hgoodF : stackSegs S.reverse := fun x hx => hgood x (List.mem_reverse.mp hx)
  have hres : resolveChars cwd p = '/' :: joinSegs S.reverse := by
    unfold resolveChars
    rw [resolveSegs_abs cwd p habs]
    rfl
  cases hSe : S with
  | nil =>
    -- the path resolves to the root
    have hcore : joinSegs (normSegs false (splitSegs p)) = [] := by
      show joinSegs S.reverse = joinSegs ([] : List Seg).reverse
      rw [hSe]
    have hp : p ≠ [] := by intro h; subst h; simp [isAbsC] at habs
    have hnorm : normalizeChars p = ['/'] := by
      unfold normalizeChars
      rw [if_neg hp]
      simp [habs, hcore]
    rw [hnorm, hres, hSe]
    rfl
  | cons a t =>
    have hSne : S ≠ [] := by rw [hSe]; simp
    have hFne : S.reverse ≠ [] := by simp [hSe]
    have hcore : joinSegs (normSegs false (splitSegs p)) = joinSegs S.reverse := rfl
    have hcorene : joinSegs S.reverse ≠ [] :=
      joinSegs_ne_nil S.reverse hFne (fun x hx => (hgoodF x hx).1.1)
    by_cases htrail : endsSlash p = false
    · rw [normalizeChars_abs p habs htrail, hcore,
        resolveChars_canonical cwd S.reverse hgoodF, hres]
    · -- trailing slash: `normalize` keeps it, `resolve` drops it again
      have htrail' : endsSlash p = true := by
        cases h : endsSlash p
        · exact absurd h htrail
        · rfl
      have hp : p ≠ [] := by intro h; subst h; simp [isAbsC] at habs
      have hnorm : normalizeChars p = '/' :: (joinSegs S.reverse ++ ['/']) := by
        unfold normalizeChars
        rw [if_neg hp]
        simp [habs, htrail', hcore, hcorene]
      rw [hnorm, hres]
      unfold resolveChars
      rw [resolveSegs_abs cwd _ (isAbsC_slash _)]
      rw [splitSegs_cons_slash]
      rw [show joinSegs S.reverse ++ ['/'] = joinSegs S.reverse ++ '/' :: [] from rfl]
      rw [show splitSegs (joinSegs S.reverse ++ '/' :: []) =
          splitOnChar '/' (joinSegs S.reverse ++ '/' :: []) from rfl]
      rw [splitOnChar_append_sep '/' (joinSegs S.reverse) []]
      rw [show splitOnChar '/' (joinSegs S.reverse) = splitSegs (joinSegs S.reverse) from rfl]
      rw [splitSegs_joinSegs S.reverse hFne (fun x hx => (hgoodF x hx).2)]
      unfold normSegs normStack
      rw [List.foldl_cons, normStep_skip_nil, List.foldl_append,
        foldl_normStep_push_all false S.reverse [] (fun x hx => (hgoodF x hx).1)]
      rw [show splitOnChar '/' ([] : List Char) = [[]] from rfl]
      rw [List.foldl_cons, normStep_skip_nil, List.foldl_nil]
      simp

/-! ## The `safeJoinPath` traversal computation -/

theorem joinChars_single (l : List Char) (h : l ≠ []) : joinChars [l] = normalizeChars l := by
  simp [joinChars, h, joinSegs, joinWithChar]

theorem safeJoinPath_zero (cwd base : String) (habs : isAbsC base.data = true) :
    safeJoinPath cwd base [] = .ok (pathResolve cwd base) := by
  have hb : base.data ≠ [] := by
    intro h; rw [h] at habs; simp [isAbsC] at habs
  have hraw : pathJoin [base] = (⟨normalizeChars base.data⟩ : String) := by
    show (⟨joinChars [base.data]⟩ : String) = _
    rw [joinChars_single base.data hb]
  have hres : pathResolve cwd (⟨normalizeChars base.data⟩ : String) = pathResolve cwd base := by
    show (⟨resolveChars cwd.data (normalizeChars base.data)⟩ : String) = _
    rw [resolve_normalize_abs cwd.data base.data habs]
    rfl
  unfold safeJoinPath
  simp [hraw, hres]

/-- Resolving `join(base, "..", "..", "etc")` for an absolute `base` pops
the two innermost components of the resolved base and descends into
`etc`. -/
theorem traversal_resolved (cwd b : List Char) (habs : isAbsC b = true) :
    resolveChars cwd (joinChars [b, ['.', '.'], ['.', '.'], ['e', 't', 'c']]) =
      '/' :: joinSegs ((['e', 't', 'c'] ::
        popSeg (popSeg (normStack false (splitSegs b)))).reverse) := by
  have hb : b ≠ [] := by intro h; rw [h] at habs; simp [isAbsC] at habs
  set S := normStack false (splitSegs b) with hS
  have hgood : ∀ x ∈ S, stackSeg x := goodStack_normStack b
  have hgood2 : ∀ x ∈ popSeg (popSeg S), stackSeg x :=
    goodStack_popSeg _ (goodStack_popSeg _ hgood)
  have hgoodP : stackSegs ((['e', 't', 'c'] :: popSeg (popSeg S)).reverse) := by
    intro x hx
    rcases List.mem_cons.mp (List.mem_reverse.mp hx) with h1 | h1
    · subst h1; refine ⟨⟨by simp, by simp, by simp⟩, by simp⟩
    · exact hgood2 x h1
  have hjoined : joinChars [b, ['.', '.'], ['.', '.'], ['e', 't', 'c']] =
      normalizeChars (b ++ '/' :: ['.', '.', '/', '.', '.', '/', 'e', 't', 'c']) := by
    unfold joinChars
    have hfilter : ([b, ['.', '.'], ['.', '.'], ['e', 't', 'c']].filter (fun l => l ≠ [])) =
        [b, ['.', '.'], ['.', '.'], ['e', 't', 'c']] := by
      simp [hb]
    rw [hfilter]
    rw [if_neg (by simp : ¬([b, ['.', '.'], ['.', '.'], ['e', 't', 'c']] = []))]
    rw [show joinSegs [b, ['.', '.'], ['.', '.'], ['e', 't', 'c']] =
        joinWithChar '/' [b, ['.', '.'], ['.', '.'], ['e', 't', 'c']] from rfl]
    rw [joinWithChar_cons '/' b [['.', '.'], ['.', '.'], ['e', 't', 'c']] (by simp)]
    rfl
  have habs2 : isAbsC (b ++ '/' :: ['.', '.', '/', '.', '.', '/', 'e', 't', 'c']) = true := by
    rw [isAbsC_append b _ hb]; exact habs
  have htrail : endsSlash (b ++ '/' :: ['.', '.', '/', '.', '.', '/', 'e', 't', 'c']) = false := by
    rw [endsSlash_append b _ (by simp)]
    rfl
  have hsplit : splitSegs (b ++ '/' :: ['.', '.', '/', '.', '.', '/', 'e', 't', 'c']) =
      splitSegs b ++ [['.', '.'], ['.', '.'], ['e', 't', 'c']] := by
    show splitOnChar '/' (b ++ '/' :: _) = _
    rw [splitOnChar_append_sep]
    rfl
  have hstack : normStack false
      (splitSegs (b ++ '/' :: ['.', '.', '/', '.', '.', '/', 'e', 't', 'c'])) =
      ['e', 't', 'c'] :: popSeg (popSeg S) := by
    rw [hsplit]
    unfold normStack
    rw [List.foldl_append]
    rw [show List.foldl (normStep false) [] (splitSegs b) = S from rfl]
    rw [List.foldl_cons, normStep_pop S hgood]
    rw [List.foldl_cons, normStep_pop (popSeg S) (goodStack_popSeg _ hgood)]
    rw [List.foldl_cons, normStep_push false _ ['e', 't', 'c'] ⟨by simp, by simp, by simp⟩]
    rfl
  rw [hjoined]
  rw [normalizeChars_abs _ habs2 htrail]
  rw [show normSegs false (splitSegs (b ++ '/' :: ['.', '.', '/', '.', '.', '/', 'e', 't', 'c'])) =
      (normStack false (splitSegs (b ++ '/' :: ['.', '.', '/', '.', '.', '/', 'e', 't', 'c']))).reverse
    from rfl]
  rw [hstack]
  exact resolveChars_canonical cwd _ hgoodP

theorem safeJoinPath_eval (cwd base : String) (subPaths : List String) (rp rb : String)
    (hrp : pathResolve cwd (pathJoin (base :: subPaths)) = rp)
    (hrb : pathResolve cwd base = rb) :
    safeJoinPath cwd base subPaths =
      (if jsStartsWith rp (rb ++ "/") = true ∨ rp = rb then .ok rp
       else .error "Path Error: attempted to access a path outside the allowed base directory") := by
  unfold safeJoinPath
  simp only [hrp, hrb]

/-- The full outcome analysis of `safeJoinPath(base, "..", "..", "etc")` for
an absolute base: the call throws unless the base resolves to `/etc`
itself, in which case the traversal drops to the root and climbs back into
`/etc`, so the containment check passes. -/
theorem safeJoinPath_traversal_outcome (cwd base : String) (habs : isAbsC base.data = true) :
    (pathResolve cwd base = "/etc" ∧ safeJoinPath cwd base ["..", "..", "etc"] = .ok "/etc") ∨
    (pathResolve cwd base ≠ "/etc" ∧
      (safeJoinPath cwd base ["..", "..", "etc"]).isOk = false) := by
  set S := normStack false (splitSegs base.data) with hS
  have hgood : ∀ x ∈ S, stackSeg x := goodStack_normStack base.data
  have hrb : pathResolve cwd base = (⟨'/' :: joinSegs S.reverse⟩ : String) := by
    show (⟨resolveChars cwd.data base.data⟩ : String) = _
    unfold resolveChars
    rw [resolveSegs_abs cwd.data base.data habs]
    rfl
  have hrp : pathResolve cwd (pathJoin (base :: ["..", "..", "etc"])) =
      (⟨'/' :: joinSegs ((['e', 't', 'c'] :: popSeg (popSeg S)).reverse)⟩ : String) := by
    show (⟨resolveChars cwd.data
      (joinChars [base.data, ['.', '.'], ['.', '.'], ['e', 't', 'c']])⟩ : String) = _
    rw [traversal_resolved cwd.data base.data habs]
  have heval := safeJoinPath_eval cwd base ["..", "..", "etc"] _ _ hrp hrb
  cases hSe : S with
  | nil =>
    right
    rw [hSe] at hrb hrp heval
    constructor
    · rw [hrb]; decide
    · rw [heval]; decide
  | cons s1 t1 =>
    have hs1 : stackSeg s1 := hgood s1 (by rw [hSe]; exact List.mem_cons_self s1 t1)
    cases ht1 : t1 with
    | nil =>
      -- the base resolves to a single component `s1`
      rw [ht1] at hSe
      rw [hSe] at hrb hrp heval
      by_cases hetc : (⟨'/' :: joinSegs ([s1] : List Seg).reverse⟩ : String) = "/etc"
      · left
        refine ⟨hrb.trans hetc, ?_⟩
        have hPetc : (⟨'/' :: joinSegs ((['e', 't', 'c'] ::
            popSeg (popSeg ([s1] : List Seg))).reverse)⟩ : String) = "/etc" := rfl
        rw [heval, if_pos (Or.inr (hPetc.trans hetc.symm))]
        exact congrArg Except.ok hPetc
      · right
        refine ⟨fun hc => hetc (hrb.symm.trans hc), ?_⟩
        rw [heval, if_neg ?_]
        · rfl
        · rintro (hpre | heq)
          · -- a one-component base is never a strict prefix of `/etc` alone
            rw [show ((⟨'/' :: joinSegs ([s1] : List Seg).reverse⟩ : String) ++ "/") =
                (⟨('/' :: joinSegs [s1]) ++ ['/']⟩ : String) from rfl] at hpre
            have hiff := canonical_strict_prefix_iff [s1] [['e', 't', 'c']]
              (fun x hx => by rw [List.mem_singleton.mp hx]; exact hs1)
              (fun x hx => by
                rw [List.mem_singleton.mp hx]
                exact ⟨⟨by simp, by simp, by simp⟩, by simp⟩)
              (by simp)
            rw [show jsStartsWith
                (⟨'/' :: joinSegs ((['e', 't', 'c'] :: popSeg (popSeg ([s1] : List Seg))).reverse)⟩)
                (⟨('/' :: joinSegs [s1]) ++ ['/']⟩ : String) =
                isPrefixOfC (('/' :: joinSegs [s1]) ++ ['/'])
                  ('/' :: joinSegs [['e', 't', 'c']]) from rfl] at hpre
            rcases hiff.mp hpre with ⟨r, hr, hPr⟩
            have : (1 : Nat) = 1 + r.length := by
              have := congrArg List.length hPr
              simpa using this
            have : r.length = 0 := by omega
            exact hr (List.eq_nil_of_length_eq_zero this)
          · -- equality would mean the base itself is `/etc`, excluded here
            exact hetc (by
              have : (⟨'/' :: joinSegs ((['e', 't', 'c'] ::
                  popSeg (popSeg ([s1] : List Seg))).reverse)⟩ : String) = "/etc" := rfl
              rw [← heq, this])
    | cons s2 t2 =>
      -- the base resolves to at least two components: the traversal always escapes
      right
      rw [ht1] at hSe
      rw [hSe] at hrb hrp heval
      have hgoodS : ∀ x ∈ s1 :: s2 :: t2, stackSeg x := by
        intro x hx; exact hgood x (by rw [hSe]; exact hx)
      have hgoodF : stackSegs (s1 :: s2 :: t2).reverse :=
        fun x hx => hgoodS x (List.mem_reverse.mp hx)
      have hgoodP : stackSegs ((['e', 't', 'c'] :: t2).reverse) := by
        intro x hx
        rcases List.mem_cons.mp (List.mem_reverse.mp hx) with h1 | h1
        · subst h1; exact ⟨⟨by simp, by simp, by simp⟩, by simp⟩
        · exact hgoodS x (List.mem_cons_of_mem s1 (List.mem_cons_of_mem s2 h1))
      have hlenF : (s1 :: s2 :: t2).reverse.length = t2.length + 2 := by simp
      have hlenP : ((['e', 't', 'c'] :: t2).reverse).length = t2.length + 1 := by simp
      constructor
      · intro hc
        rw [hrb] at hc
        have hdata : '/' :: joinSegs (s1 :: s2 :: t2).reverse = '/' :: joinSegs [['e', 't', 'c']] := by
          have := congrArg String.data hc
          exact this
        have hj : joinSegs (s1 :: s2 :: t2).reverse = joinSegs [['e', 't', 'c']] := by
          injection hdata
        have := canonical_inj _ _ hgoodF
          (fun x hx => by
            rw [List.mem_singleton.mp hx]
            exact ⟨⟨by simp, by simp, by simp⟩, by simp⟩) hj
        have := congrArg List.length this
        rw [hlenF] at this
        simp at this
      · rw [heval, if_neg ?_]
        · rfl
        · have hpop : popSeg (popSeg (s1 :: s2 :: t2)) = t2 := rfl
          rw [hpop]
          rintro (hpre | heq)
          · rw [show ((⟨'/' :: joinSegs (s1 :: s2 :: t2).reverse⟩ : String) ++ "/") =
                (⟨('/' :: joinSegs (s1 :: s2 :: t2).reverse) ++ ['/']⟩ : String) from rfl] at hpre
            have hFne : (s1 :: s2 :: t2).reverse ≠ [] := by simp
            have hiff := canonical_strict_prefix_iff (s1 :: s2 :: t2).reverse
              ((['e', 't', 'c'] :: t2).reverse) hgoodF hgoodP hFne
            rw [show jsStartsWith (⟨'/' :: joinSegs ((['e', 't', 'c'] :: t2).reverse)⟩ : String)
                (⟨('/' :: joinSegs (s1 :: s2 :: t2).reverse) ++ ['/']⟩ : String) =
                isPrefixOfC (('/' :: joinSegs (s1 :: s2 :: t2).reverse) ++ ['/'])
                  ('/' :: joinSegs ((['e', 't', 'c'] :: t2).reverse)) from rfl] at hpre
            rcases hiff.mp hpre with ⟨r, hr, hPr⟩
            have := congrArg List.length hPr
            rw [hlenP] at this
            rw [List.length_append, hlenF] at this
            have hrlen : r.length = 0 := by omega
            exact hr (List.eq_nil_of_length_eq_zero hrlen)
          · have hdata : '/' :: joinSegs ((['e', 't', 'c'] :: t2).reverse) =
                '/' :: joinSegs (s1 :: s2 :: t2).reverse := congrArg String.data heq
            have hj : joinSegs ((['e', 't', 'c'] :: t2).reverse) =
                joinSegs (s1 :: s2 :: t2).reverse := by injection hdata
            have hPF := canonical_inj _ _ hgoodP hgoodF hj
            have := congrArg List.length hPF
            rw [hlenP, hlenF] at this
            omega

/-! ## Round-trip machinery: `relativize` composed with `safeJoin` -/

theorem map_replace_id (l : List Char) (h : '\\' ∉ l) :
    l.map (fun c => if c = '\\' then '/' else c) = l := by
  induction l with
  | nil => rfl
  | cons c cs ih =>
    have hc : c ≠ '\\' := fun hcc => h (hcc ▸ List.mem_cons_self c cs)
    have hcs : '\\' ∉ cs := fun hm => h (List.mem_cons_of_mem c hm)
    simp [hc, ih hcs]

theorem replaceBackslashes_canonical (L : List Seg) (h : noBS L) :
    replaceBackslashes (canonicalAbs L) = canonicalAbs L := by
  unfold replaceBackslashes canonicalAbs
  congr 1
  have hnb : '\\' ∉ '/' :: joinSegs L := by
    intro hmem
    rcases List.mem_cons.mp hmem with h1 | h1
    · exact absurd h1 (by decide)
    · rcases mem_joinWithChar '/' L '\\' h1 with h2 | ⟨s, hs, hcs⟩
      · exact absurd h2 (by decide)
      · exact h s hs hcs
  exact map_replace_id _ hnb

theorem winDrive_slash (x : List Char) : winDrive ⟨'/' :: x⟩ = false := by
  unfold winDrive
  cases x with
  | nil => rfl
  | cons b y =>
    cases y with
    | nil => rfl
    | cons c z => simp [show ('/').isAlpha = false from rfl]

theorem dotdot_prefix_aux (h rest : List Char) (hns : '/' ∉ h) (hdd : h ≠ ['.', '.'])
    (hne : h ≠ []) (hrest : rest = [] ∨ ∃ w, rest = '/' :: w) :
    (['.', '.', '/'] : List Char).isPrefixOf (h ++ rest) = false := by
  cases h with
  | nil => exact absurd rfl hne
  | cons c1 h1 =>
    by_cases e1 : c1 = '.'
    case neg =>
      simp only [List.cons_append, List.isPrefixOf, Bool.and_eq_false_iff]
      left
      simpa using fun hc => e1 hc.symm
    subst e1
    cases h1 with
    | nil =>
      rcases hrest with rfl | ⟨w, rfl⟩
      · rfl
      · simp [List.isPrefixOf]
    | cons c2 h2 =>
      by_cases e2 : c2 = '.'
      case neg =>
        simp only [List.cons_append, List.isPrefixOf, Bool.and_eq_false_iff]
        right; left
        simpa using fun hc => e2 hc.symm
      subst e2
      cases h2 with
      | nil =>
        rcases hrest with rfl | ⟨w, rfl⟩
        · rfl
        · exact absurd rfl hdd
      | cons c3 h3 =>
        have hc3mem : c3 ∈ ('.' :: '.' :: c3 :: h3 : List Char) := by simp
        have hc3 : c3 ≠ '/' := fun hc => hns (hc ▸ hc3mem)
        simp only [List.cons_append, List.isPrefixOf, Bool.and_eq_false_iff]
        right; right; left
        simpa using fun hc => hc3 hc.symm

theorem joinSegs_cons_decomp (a : Seg) (u : List Seg) :
    joinSegs (a :: u) = a ++ (if u = [] then [] else '/' :: joinSegs u) := by
  cases u with
  | nil => simp [joinSegs, joinWithChar]
  | cons b v => rw [joinSegs_cons a (b :: v) (by simp)]; simp

theorem dotdot_not_prefix_joinSegs (R : List Seg) (hR : stackSegs R) (hne : R ≠ []) :
    (['.', '.', '/'] : List Char).isPrefixOf (joinSegs R) = false := by
  cases R with
  | nil => exact absurd rfl hne
  | cons a u =>
    have ha : stackSeg a := hR a (List.mem_cons_self a u)
    rw [joinSegs_cons_decomp a u]
    refine dotdot_prefix_aux a _ ha.2 ha.1.2.2 ha.1.1 ?_
    by_cases hu : u = []
    · left; simp [hu]
    · right; exact ⟨joinSegs u, by simp [hu]⟩

theorem pathResolve_pathJoin_two (cwd b x : String) (hb : isAbsC b.data = true)
    (hx : x.data ≠ []) :
    pathResolve cwd (pathJoin [b, x]) =
      (⟨resolveChars cwd.data (b.data ++ '/' :: x.data)⟩ : String) := by
  have hbne : b.data ≠ [] := by
    intro h; rw [h] at hb; simp [isAbsC] at hb
  have hjoin : pathJoin [b, x] = (⟨normalizeChars (b.data ++ '/' :: x.data)⟩ : String) := by
    show (⟨joinChars [b.data, x.data]⟩ : String) = _
    unfold joinChars
    rw [show ([b.data, x.data].filter (fun l => l ≠ [])) = [b.data, x.data] by simp [hbne, hx]]
    rw [if_neg (by simp)]
    rw [show joinSegs [b.data, x.data] = joinWithChar '/' [b.data, x.data] from rfl]
    rw [joinWithChar_cons '/' b.data [x.data] (by simp)]
    rfl
  rw [hjoin]
  show (⟨resolveChars cwd.data (normalizeChars (b.data ++ '/' :: x.data))⟩ : String) = _
  rw [resolve_normalize_abs cwd.data _ (by rw [isAbsC_append _ _ hbne]; exact hb)]

/-- Resolving `<canonical base>/.` gives the base back. -/
theorem resolve_canonical_dot (cwd : List Char) (B : List Seg) (hB : stackSegs B)
    (hBne : B ≠ []) :
    resolveChars cwd (('/' :: joinSegs B) ++ '/' :: ['.']) = '/' :: joinSegs B := by
  unfold resolveChars
  rw [List.cons_append]
  rw [resolveSegs_abs cwd _ (isAbsC_slash _)]
  rw [splitSegs_cons_slash]
  rw [show splitSegs (joinSegs B ++ '/' :: ['.']) =
      splitSegs (joinSegs B) ++ splitSegs ['.'] from splitOnChar_append_sep '/' _ _]
  rw [splitSegs_joinSegs B hBne (fun s hs => (hB s hs).2)]
  rw [show splitSegs (['.'] : List Char) = [['.']] from rfl]
  unfold normSegs normStack
  rw [List.foldl_cons, normStep_skip_nil, List.foldl_append,
    foldl_normStep_push_all false B [] (fun s hs => (hB s hs).1),
    List.foldl_cons, normStep_skip_dot, List.foldl_nil]
  simp

/-- Resolving `<canonical base>/<canonical relative R>` appends the
components. -/
theorem resolve_canonical_append (cwd : List Char) (B R : List Seg) (hB : stackSegs B)
    (hR : stackSegs R) (hBne : B ≠ []) (hRne : R ≠ []) :
    resolveChars cwd (('/' :: joinSegs B) ++ '/' :: joinSegs R) = '/' :: joinSegs (B ++ R) := by
  unfold resolveChars
  rw [List.cons_append]
  rw [resolveSegs_abs cwd _ (isAbsC_slash _)]
  rw [splitSegs_cons_slash]
  rw [show splitSegs (joinSegs B ++ '/' :: joinSegs R) =
      splitSegs (joinSegs B) ++ splitSegs (joinSegs R) from splitOnChar_append_sep '/' _ _]
  rw [splitSegs_joinSegs B hBne (fun s hs => (hB s hs).2)]
  rw [splitSegs_joinSegs R hRne (fun s hs => (hR s hs).2)]
  unfold normSegs normStack
  rw [List.foldl_cons, normStep_skip_nil,
    foldl_normStep_push_all false (B ++ R) []
      (fun s hs => ((List.mem_append.mp hs).elim (fun h => (hB s h).1) (fun h => (hR s h).1)))]
  simp

theorem pathResolve_canonical (cwd : String) (L : List Seg) (h : stackSegs L) :
    pathResolve cwd (canonicalAbs L) = canonicalAbs L := by
  show (⟨resolveChars cwd.data ('/' :: joinSegs L)⟩ : String) = _
  rw [resolveChars_canonical cwd.data L h]
  rfl

theorem replaceBackslashes_joinSegs (R : List Seg) (h : noBS R) :
    replaceBackslashes ⟨joinSegs R⟩ = (⟨joinSegs R⟩ : String) := by
  unfold replaceBackslashes
  congr 1
  refine map_replace_id _ ?_
  intro hmem
  rcases mem_joinWithChar '/' R '\\' hmem with h1 | ⟨s, hs, hcs⟩
  · exact absurd h1 (by decide)
  · exact h s hs hcs

theorem relativeChars_canonical (cwd : List Char) (B rest : List Seg) (hB : stackSegs B)
    (hrest : stackSegs rest) :
    relativeChars cwd ('/' :: joinSegs B) ('/' :: joinSegs (B ++ rest)) =
      (if rest = [] then [] else joinSegs rest) := by
  have hBR : stackSegs (B ++ rest) := by
    intro s hs
    rcases List.mem_append.mp hs with h1 | h1
    · exact hB s h1
    · exact hrest s h1
  unfold relativeChars
  rw [resolveSegs_canonical cwd B hB, resolveSegs_canonical cwd (B ++ rest) hBR]
  by_cases h : rest = []
  · subst h; simp
  · rw [if_neg (show ¬(B = B ++ rest) from fun hc => h (List.append_right_eq_self.mp hc.symm))]
    show joinSegs (List.replicate (B.length - commonPrefixLen B (B ++ rest)) ['.', '.'] ++
      List.drop (commonPrefixLen B (B ++ rest)) (B ++ rest)) = _
    rw [commonPrefixLen_self_append, List.drop_left, Nat.sub_self, List.replicate_zero,
      List.nil_append, if_neg h]

/-- The relativization of a canonical path strictly inside (or equal to)
the canonical workspace base: `"."` for the base itself, the joined
remaining components otherwise. -/
theorem relativize_canonical (cwd : String) (B rest : List Seg) (hB : stackSegs B)
    (hrest : stackSegs rest) (hnbB : noBS B) (hnbRest : noBS rest) :
    normalizeAndRelativizePath cwd (canonicalAbs (B ++ rest)) (canonicalAbs B) false =
      (if rest = [] then "." else (⟨joinSegs rest⟩ : String)) := by
  have hBR : stackSegs (B ++ rest) := by
    intro s hs
    rcases List.mem_append.mp hs with h1 | h1
    · exact hB s h1
    · exact hrest s h1
  have hnbBR : noBS (B ++ rest) := by
    intro s hs
    rcases List.mem_append.mp hs with h1 | h1
    · exact hnbB s h1
    · exact hnbRest s h1
  have hne : canonicalAbs (B ++ rest) ≠ "" :=
    string_ne_of_data_ne _ _ (by simp)
  unfold normalizeAndRelativizePath
  rw [if_neg hne]
  simp only [replaceBackslashes_canonical (B ++ rest) hnbBR,
    replaceBackslashes_canonical B hnbB]
  have hwd : winDrive (canonicalAbs (B ++ rest)) = false := winDrive_slash _
  have hstart : jsStartsWith (canonicalAbs (B ++ rest)) "/" = true := by
    show (['/'] : List Char).isPrefixOf ('/' :: joinSegs (B ++ rest)) = true
    simp [List.isPrefixOf]
  rw [hwd, hstart]
  simp only [Bool.false_or, if_pos rfl]
  have hrel : pathRelative cwd (canonicalAbs B) (canonicalAbs (B ++ rest)) =
      (⟨if rest = [] then [] else joinSegs rest⟩ : String) := by
    show (⟨relativeChars cwd.data ('/' :: joinSegs B) ('/' :: joinSegs (B ++ rest))⟩ : String) = _
    rw [relativeChars_canonical cwd.data B rest hB hrest]
  rw [hrel]
  by_cases h : rest = []
  · simp only [if_pos h]
    rw [show replaceBackslashes (⟨[]⟩ : String) = (⟨[]⟩ : String) from rfl]
    have hcond : ¬(jsStartsWith (⟨[]⟩ : String) "../" = true ∨
        (winDrive (⟨[]⟩ : String) = true ∧ (⟨[]⟩ : String) = canonicalAbs (B ++ rest))) := by
      rintro (hdd | ⟨hw, -⟩)
      · exact absurd hdd (by decide)
      · exact absurd hw (by decide)
    rw [if_neg hcond, if_pos rfl]
    simp
  · simp only [if_neg h]
    rw [replaceBackslashes_joinSegs rest hnbRest]
    have hjoinne : joinSegs rest ≠ [] :=
      joinSegs_ne_nil rest h (fun s hs => (hrest s hs).1.1)
    have hnotdd : jsStartsWith (⟨joinSegs rest⟩ : String) "../" = false := by
      show (['.', '.', '/'] : List Char).isPrefixOf (joinSegs rest) = false
      exact dotdot_not_prefix_joinSegs rest hrest h
    have hneq : (⟨joinSegs rest⟩ : String) ≠ canonicalAbs (B ++ rest) := by
      apply string_ne_of_data_ne
      cases hre : rest with
      | nil => exact absurd hre h
      | cons a u =>
        have ha : stackSeg a := hrest a (by rw [hre]; exact List.mem_cons_self a u)
        rw [joinSegs_cons_decomp a u]
        cases hae : a with
        | nil => exact absurd hae ha.1.1
        | cons c1 a1 =>
          have hc1 : c1 ≠ '/' := fun hc =>
            ha.2 (hc ▸ (hae ▸ List.mem_cons_self c1 a1))
          intro hcontra
          rw [List.cons_append] at hcontra
          injection hcontra with h1 h2
          exact hc1 h1
    have hcond : ¬(jsStartsWith (⟨joinSegs rest⟩ : String) "../" = true ∨
        (winDrive (⟨joinSegs rest⟩ : String) = true ∧
          (⟨joinSegs rest⟩ : String) = canonicalAbs (B ++ rest))) := by
      rintro (hdd | ⟨-, heqp⟩)
      · rw [hnotdd] at hdd
        exact absurd hdd (by simp)
      · exact hneq heqp
    rw [if_neg hcond]
    rw [if_neg (fun hc : (⟨joinSegs rest⟩ : String) = "" =>
      hjoinne (congrArg String.data hc))]
    simp

/-! ## Substring occurrence (`String.prototype.includes`) -/

theorem infixOfC_of_isPrefixOf (n h : List Char) (hp : n.isPrefixOf h = true) :
    infixOfC n h = true := by
  cases h with
  | nil =>
    cases n with
    | nil => rfl
    | cons c cs => simp [List.isPrefixOf] at hp
  | cons c cs => simp [infixOfC, hp]

theorem infixOfC_append_left (x n h : List Char) (hi : infixOfC n h = true) :
    infixOfC n (x ++ h) = true := by
  induction x with
  | nil => exact hi
  | cons c cs ih =>
    rw [List.cons_append]
    simp [infixOfC, ih]

theorem infixOfC_of_decomp (pre n post : List Char) :
    infixOfC n (pre ++ n ++ post) = true := by
  rw [List.append_assoc]
  exact infixOfC_append_left pre n (n ++ post)
    (infixOfC_of_isPrefixOf n (n ++ post) ((isPrefixOf_iff_exists n (n ++ post)).mpr ⟨post, rfl⟩))

theorem splitOnChar_head_pre (sep : Char) (l : List Char) :
    ∃ h t, splitOnChar sep l = h :: t ∧ h.isPrefixOf l = true := by
  induction l with
  | nil => exact ⟨[], [], rfl, rfl⟩
  | cons c cs ih =>
    rcases ih with ⟨h, t, hsplit, hpre⟩
    by_cases hc : c = sep
    · exact ⟨[], splitOnChar sep cs, by simp [splitOnChar, hc], rfl⟩
    · refine ⟨c :: h, t, ?_, ?_⟩
      · rw [splitOnChar_cons_ne sep c cs hc, hsplit]; rfl
      · simp [List.isPrefixOf, hpre]

/-- Every component produced by a split is a substring of the original
string: membership of `node_modules` as a component implies the
`includes('node_modules')` test fires. -/
theorem mem_splitOnChar_substr (sep : Char) (l : List Char) (s : Seg)
    (hs : s ∈ splitOnChar sep l) : infixOfC s l = true := by
  induction l generalizing s with
  | nil =>
    simp only [splitOnChar, List.mem_singleton] at hs
    subst hs; rfl
  | cons c cs ih =>
    by_cases hc : c = sep
    · simp only [splitOnChar, if_pos hc] at hs
      rcases List.mem_cons.mp hs with rfl | hm
      · simp [infixOfC, List.isPrefixOf]
      · simp [infixOfC, ih s hm]
    · rw [splitOnChar_cons_ne sep c cs hc] at hs
      rcases splitOnChar_head_pre sep cs with ⟨h, t, hsplit, hpre⟩
      rw [hsplit] at hs
      simp only [consHead] at hs
      rcases List.mem_cons.mp hs with rfl | hm
      · show infixOfC (c :: h) (c :: cs) = true
        simp [infixOfC, List.isPrefixOf, hpre]
      · simp [infixOfC, ih s (hsplit ▸ List.mem_cons_of_mem h hm)]

/-! ## The raw branch listing -/

theorem listRemote_contains (branches : List (List Char)) (b : List Char)
    (hb : b ∈ branches) :
    infixOfC (("refs/heads/").data ++ b) (listRemoteChars branches) = true := by
  induction branches with
  | nil => cases hb
  | cons a rest ih =>
    show infixOfC _ (refLine a ++ listRemoteChars rest) = true
    rcases List.mem_cons.mp hb with rfl | hm
    · have hdecomp : refLine b ++ listRemoteChars rest =
          ("0000000000000000000000000000000000000000\t").data ++
            (("refs/heads/").data ++ b) ++ ('\n' :: listRemoteChars rest) := by
        unfold refLine
        simp [List.append_assoc]
      rw [hdecomp]
      exact infixOfC_of_decomp _ _ _
    · exact infixOfC_append_left (refLine a) _ _ (ih hm)

/-! ## Validation of comma-separated ruleset lists -/

theorem validatePmdList_error (directory : String) (l : List String)
    (h : ∃ p ∈ l, (validatePmdRulesetPath p directory).isOk = false) :
    (validatePmdList directory l).isOk = false := by
  induction l with
  | nil =>
    rcases h with ⟨p, hp, -⟩
    cases hp
  | cons a rest ih =>
    rcases h with ⟨p, hp, hbad⟩
    rcases List.mem_cons.mp hp with rfl | hm
    · cases hfa : validatePmdRulesetPath p directory with
      | error e => simp [validatePmdList, hfa, Except.isOk, Except.toBool]
      | ok v => rw [hfa] at hbad; simp [Except.isOk, Except.toBool] at hbad
    · cases hfa : validatePmdRulesetPath a directory with
      | error e => simp [validatePmdList, hfa, Except.isOk, Except.toBool]
      | ok v =>
        have := ih ⟨p, hm, hbad⟩
        cases hrest : validatePmdList directory rest with
        | error e => simp [validatePmdList, hfa, hrest, Except.isOk, Except.toBool]
        | ok vs => rw [hrest] at this; simp [Except.isOk, Except.toBool] at this

/-! # The claims -/

/-- Claim C1, counterexample: the claim asserts that for every ESLint
result set `summary.errorCount` equals the number of retained issues with
severity `error` after the final filter.  For a file entry whose
self-reported `errorCount` is 1 but whose single message has line 0 (so
the final filter drops it), `summary.errorCount` is 1 while the retained
error-issue count is 0. -/
theorem eslint_summary_mismatch_cex :
    ¬ ((standardizeESLint "/" "/ws"
        [⟨"a.js", 1, 0, [⟨some 0, some 1, 2, some "no-undef", "x is not defined"⟩]⟩]).summary.errorCount =
      (((standardizeESLint "/" "/ws"
        [⟨"a.js", 1, 0, [⟨some 0, some 1, 2, some "no-undef", "x is not defined"⟩]⟩]).issues.filter
          (fun i => decide (i.severity = Severity.error))).length : Int)) := by
  decide

/-- Claim C1, amended: the ESLint branch of `standardizeResults` takes its
summary counts from the tool's self-reported per-file totals
(`errorCount` / `warningCount` summed over the file entries, `fileCount`
the number of entries), computed before the final filter; the issue list
alone passes through the final filter, so the counts can exceed the
retained issues. -/
theorem eslint_summary_from_tool_totals (cwd baseDirectory : String)
    (files : List EslintFile) :
    (standardizeESLint cwd baseDirectory files).summary.errorCount =
        (files.map (fun f => f.errorCount)).foldl (· + ·) 0 ∧
    (standardizeESLint cwd baseDirectory files).summary.warningCount =
        (files.map (fun f => f.warningCount)).foldl (· + ·) 0 ∧
    (standardizeESLint cwd baseDirectory files).summary.fileCount = (files.length : Int) ∧
    (standardizeESLint cwd baseDirectory files).issues =
        applyFinalFilter (eslintRawIssues cwd baseDirectory files) :=
  ⟨rfl, rfl, rfl, rfl⟩

/-- Claim C2, counterexample: the claim asserts that every transition
failure of the sparse checkout engine removes the workspace before the
error propagates.  When the very first transition (`git init`) fails, the
engine returns an error while the workspace still exists. -/
theorem sparse_checkout_no_cleanup_cex :
    ((sparseCheckoutModel (fun s => decide (s = CkStep.gitInit)) "/tmp/ws" ⟨true⟩).1).isOk
        = false ∧
    (sparseCheckoutModel (fun s => decide (s = CkStep.gitInit)) "/tmp/ws" ⟨true⟩).2.workspaceExists
        = true :=
  ⟨rfl, rfl⟩

/-- Claim C2, amended: `sparseCheckout` itself never removes the workspace
— its catch block re-throws with the file-system state unchanged — and it
is the orchestrator `analyzeCode` that removes the workspace in its
`finally` block on every exit path (when the removal itself does not
fail), so no workspace survives a completed `analyzeCode` run, but a
direct caller of `sparseCheckout` does observe the partially-populated
workspace. -/
theorem sparse_checkout_cleanup_in_orchestrator (fails : CkStep → Bool) (dir : String)
    (st : FSState) (analyzerFails : Bool) :
    (sparseCheckoutModel fails dir st).2 = st ∧
    (analyzeCodeModel fails analyzerFails false dir).2.workspaceExists = false := by
  constructor
  · unfold sparseCheckoutModel
    cases runCkSteps fails ckStepList <;> rfl
  · rfl

/-- Claim C3, counterexample: the claim asserts the requested branch is
returned exactly when the remote lists `refs/heads/<requested>` and that
`'main'` is used only when the remote lists `refs/heads/main`.  The source
uses a substring test on the raw `ls-remote` output, so a remote whose
only branch is `maintainer` (which contains `refs/heads/main` as a
substring) makes an absent request resolve to `'main'` instead of
failing. -/
theorem branch_substring_cex :
    determineRemoteBranch (listRemoteOutput ["maintainer"]) "feature-x" = .ok "main" ∧
    ("main" ∉ ["maintainer"]) ∧ ("feature-x" ∉ ["maintainer"]) :=
  ⟨rfl, by decide, by decide⟩

/-- Claim C3, amended: branch resolution works by substring containment on
the raw remote-refs listing: the requested branch is returned whenever the
listing contains the substring `refs/heads/<requested>` (in particular
whenever the branch is genuinely listed); otherwise `'main'` is returned
if the listing contains `refs/heads/main`, otherwise `'master'` likewise,
and when none of the three substrings occur the function fails with an
error and no further fallback is attempted.  Requesting an absent branch
when `main` exists therefore succeeds against `main` without an error. -/
theorem branch_fallback_order (branches : List String) (desiredBranch : String) :
    (desiredBranch ∈ branches →
      determineRemoteBranch (listRemoteOutput branches) desiredBranch = .ok desiredBranch) ∧
    (jsIncludes (listRemoteOutput branches) ("refs/heads/" ++ desiredBranch) = true →
      determineRemoteBranch (listRemoteOutput branches) desiredBranch = .ok desiredBranch) ∧
    (jsIncludes (listRemoteOutput branches) ("refs/heads/" ++ desiredBranch) = false →
      jsIncludes (listRemoteOutput branches) "refs/heads/main" = true →
      determineRemoteBranch (listRemoteOutput branches) desiredBranch = .ok "main") ∧
    (jsIncludes (listRemoteOutput branches) ("refs/heads/" ++ desiredBranch) = false →
      jsIncludes (listRemoteOutput branches) "refs/heads/main" = false →
      jsIncludes (listRemoteOutput branches) "refs/heads/master" = true →
      determineRemoteBranch (listRemoteOutput branches) desiredBranch = .ok "master") ∧
    (jsIncludes (listRemoteOutput branches) ("refs/heads/" ++ desiredBranch) = false →
      jsIncludes (listRemoteOutput branches) "refs/heads/main" = false →
      jsIncludes (listRemoteOutput branches) "refs/heads/master" = false →
      (determineRemoteBranch (listRemoteOutput branches) desiredBranch).isOk = false) := by
  refine ⟨?_, ?_, ?_, ?_, ?_⟩
  · intro hmem
    have hinc : jsIncludes (listRemoteOutput branches)
        ("refs/heads/" ++ desiredBranch) = true := by
      show infixOfC ("refs/heads/" ++ desiredBranch).data (listRemoteOutput branches).data = true
      rw [show ("refs/heads/" ++ desiredBranch).data =
          ("refs/heads/").data ++ desiredBranch.data from rfl]
      exact listRemote_contains (branches.map String.data) desiredBranch.data
        (List.mem_map_of_mem String.data hmem)
    unfold determineRemoteBranch
    rw [if_pos hinc]
  · intro hinc
    unfold determineRemoteBranch
    rw [if_pos hinc]
  · intro h1 h2
    unfold determineRemoteBranch
    rw [if_neg (by rw [h1]; simp), if_pos h2]
  · intro h1 h2 h3
    unfold determineRemoteBranch
    rw [if_neg (by rw [h1]; simp), if_neg (by rw [h2]; simp), if_pos h3]
  · intro h1 h2 h3
    unfold determineRemoteBranch
    rw [if_neg (by rw [h1]; simp), if_neg (by rw [h2]; simp), if_neg (by rw [h3]; simp)]
    rfl

/-- Witness for claim C3 at a concrete remote: with branches `dev` and
`main`, requesting the absent `feature-x` falls back to `main`, and
requesting `dev` resolves to `dev` (spec scenario B). -/
theorem branch_fallback_order_witness :
    determineRemoteBranch (listRemoteOutput ["dev", "main"]) "feature-x" = .ok "main" ∧
    determineRemoteBranch (listRemoteOutput ["dev", "main"]) "dev" = .ok "dev" :=
  ⟨(branch_fallback_order ["dev", "main"] "feature-x").2.2.1 (by decide) (by decide),
   (branch_fallback_order ["dev", "main"] "dev").1 (by decide)⟩

/-- Claim C6: the PMD priority-to-severity mapping is total and
deterministic over `{error, warning, info}`: numeric priorities at most 2
map to `error`, priorities 3 and 4 map to `warning`, every other numeric
priority maps to `info`, and a non-numeric value (whose `parseInt` is
`NaN`) defaults to `info`; equal inputs always yield equal buckets. -/
theorem priority_severity_total :
    (∀ p : Option Int, getSeverityFromPriority p = .error ∨
      getSeverityFromPriority p = .warning ∨ getSeverityFromPriority p = .info) ∧
    (∀ n : Int, n ≤ 2 → getSeverityFromPriority (some n) = .error) ∧
    getSeverityFromPriority (some 3) = .warning ∧
    getSeverityFromPriority (some 4) = .warning ∧
    (∀ n : Int, 4 < n → getSeverityFromPriority (some n) = .info) ∧
    getSeverityFromPriority none = .info ∧
    (∀ p q : Option Int, p = q →
      getSeverityFromPriority p = getSeverityFromPriority q) := by
  refine ⟨?_, ?_, by decide, by decide, ?_, rfl, ?_⟩
  · intro p
    cases p with
    | none => right; right; rfl
    | some n =>
      show (if n ≤ 2 then Severity.error
        else if n ≤ 4 then Severity.warning else Severity.info) = Severity.error ∨ _
      by_cases h1 : n ≤ 2
      · left; rw [if_pos h1]
      · by_cases h2 : n ≤ 4
        · right; left
          show (if n ≤ 2 then Severity.error
            else if n ≤ 4 then Severity.warning else Severity.info) = Severity.warning
          rw [if_neg h1, if_pos h2]
        · right; right
          show (if n ≤ 2 then Severity.error
            else if n ≤ 4 then Severity.warning else Severity.info) = Severity.info
          rw [if_neg h1, if_neg h2]
  · intro n hn
    show (if n ≤ 2 then Severity.error
      else if n ≤ 4 then Severity.warning else Severity.info) = Severity.error
    rw [if_pos hn]
  · intro n hn
    show (if n ≤ 2 then Severity.error
      else if n ≤ 4 then Severity.warning else Severity.info) = Severity.info
    rw [if_neg (by omega), if_neg (by omega)]
  · intro p q hpq
    rw [hpq]

/-- Witness for claim C6: priority 1 is an error, priority 7 is info. -/
theorem priority_severity_total_witness :
    getSeverityFromPriority (some 1) = .error ∧ getSeverityFromPriority (some 7) = .info :=
  ⟨priority_severity_total.2.1 1 (by decide),
   priority_severity_total.2.2.2.2.1 7 (by decide)⟩

/-- Claim C4, counterexample: the claim asserts every relative path string
without a `..` segment is accepted.  `rules..xml` is a relative path with
no `..` segment (its only component is `rules..xml`), yet
`validatePmdRulesetPath` rejects it, because the source tests for the
two-character substring `..` rather than for a segment. -/
theorem ruleset_validation_cex :
    (validatePmdRulesetPath "rules..xml" "/ws").isOk = false ∧
    pathIsAbsolute (jsTrim "rules..xml") = false ∧
    (['.', '.'] ∉ splitSegs (jsTrim "rules..xml").data) :=
  ⟨rfl, rfl, by decide⟩

/-- Reduction of the ruleset resolution on a present custom string. -/
theorem resolvePmdRulesets_some (directory s : String) :
    resolvePmdRulesets directory (some s) =
      (if jsTrim s = "" then .ok defaultPmdRulesets
       else
        match validatePmdList directory (jsSplit ',' (jsTrim s)) with
        | .error e => .error e
        | .ok validated =>
          if validated.filter (fun p => p ≠ "") ≠ [] then
            .ok (⟨joinWithChar ',' ((validated.filter (fun p => p ≠ "")).map String.data)⟩ : String)
          else .ok defaultPmdRulesets) := rfl

/-- Claim C4, amended: `validatePmdRulesetPath` accepts every `http://` /
`https://` URL and every `category/`-prefixed token as-is (even ones that
contain `..`), rejects every other reference that is an absolute path or
contains the substring `..` anywhere (not only as a segment) before any
process invocation, and accepts every remaining relative string
unresolved; a comma-separated custom ruleset string containing one
rejected entry makes the PMD run fail before the command that would invoke
the external tool is ever built. -/
theorem ruleset_validation_classes (s directory pmdPath : String) :
    ((jsStartsWith (jsTrim s) "http://" || jsStartsWith (jsTrim s) "https://"
        || jsStartsWith (jsTrim s) "category/") = true →
      validatePmdRulesetPath s directory = .ok (jsTrim s)) ∧
    (jsStartsWith (jsTrim s) "http://" = false →
      jsStartsWith (jsTrim s) "https://" = false →
      jsStartsWith (jsTrim s) "category/" = false →
      pathIsAbsolute (jsTrim s) = true →
      (validatePmdRulesetPath s directory).isOk = false) ∧
    (jsStartsWith (jsTrim s) "http://" = false →
      jsStartsWith (jsTrim s) "https://" = false →
      jsStartsWith (jsTrim s) "category/" = false →
      pathIsAbsolute (jsTrim s) = false →
      jsIncludes (jsTrim s) ".." = true →
      (validatePmdRulesetPath s directory).isOk = false) ∧
    (jsStartsWith (jsTrim s) "http://" = false →
      jsStartsWith (jsTrim s) "https://" = false →
      jsStartsWith (jsTrim s) "category/" = false →
      pathIsAbsolute (jsTrim s) = false →
      jsIncludes (jsTrim s) ".." = false →
      validatePmdRulesetPath s directory = .ok (jsTrim s)) ∧
    (jsTrim s ≠ "" →
      (∃ p ∈ jsSplit ',' (jsTrim s), (validatePmdRulesetPath p directory).isOk = false) →
      (runPMDCommand pmdPath directory (some s)).isOk = false) := by
  refine ⟨?_, ?_, ?_, ?_, ?_⟩
  · intro hurl
    unfold validatePmdRulesetPath
    rw [if_pos hurl]
  · intro h1 h2 h3 habs
    unfold validatePmdRulesetPath
    rw [if_neg (by rw [h1, h2, h3]; simp), if_pos habs]
    rfl
  · intro h1 h2 h3 habs hdd
    unfold validatePmdRulesetPath
    rw [if_neg (by rw [h1, h2, h3]; simp), if_neg (by rw [habs]; simp), if_pos hdd]
    rfl
  · intro h1 h2 h3 habs hdd
    unfold validatePmdRulesetPath
    rw [if_neg (by rw [h1, h2, h3]; simp), if_neg (by rw [habs]; simp),
      if_neg (by rw [hdd]; simp)]
  · intro hne hbad
    unfold runPMDCommand
    rw [resolvePmdRulesets_some, if_neg hne]
    cases hlist : validatePmdList directory (jsSplit ',' (jsTrim s)) with
    | error e => rfl
    | ok vs =>
      have := validatePmdList_error directory (jsSplit ',' (jsTrim s)) hbad
      rw [hlist] at this
      simp [Except.isOk, Except.toBool] at this

/-- Witness for claim C4: a safe relative entry is accepted unresolved and
the spec's scenario C string `custom/ok.xml,../bad.xml` fails before any
process invocation. -/
theorem ruleset_validation_classes_witness :
    validatePmdRulesetPath "custom/ok.xml" "/ws" = .ok "custom/ok.xml" ∧
    (runPMDCommand "/usr/local/pmd/bin/pmd" "/ws" (some "custom/ok.xml,../bad.xml")).isOk
      = false :=
  ⟨(ruleset_validation_classes "custom/ok.xml" "/ws" "/usr/local/pmd/bin/pmd").2.2.2.1
      (by decide) (by decide) (by decide) (by decide) (by decide),
   (ruleset_validation_classes "custom/ok.xml,../bad.xml" "/ws"
      "/usr/local/pmd/bin/pmd").2.2.2.2 (by decide)
      ⟨"../bad.xml", by decide, by decide⟩⟩

/-- Claim C7: every issue retained by the final filter of
`standardizeResults` has a resolved file (nonempty and not `'unknown'`),
a file with no `node_modules` component (the filter rejects any file whose
path even contains the substring), and a present, strictly positive line
number; an issue violating any condition is silently dropped from the
list, not turned into an error. -/
theorem final_filter_invariant (issues : List Issue) (i : Issue) :
    (i ∈ applyFinalFilter issues →
      i.file ≠ "" ∧ i.file ≠ "unknown" ∧
      (("node_modules").data ∉ splitSegs i.file.data) ∧
      ∃ n, i.line = some n ∧ 0 < n) ∧
    (keepIssue i = false → i ∉ applyFinalFilter issues) := by
  constructor
  · intro hmem
    have hkeep : keepIssue i = true := (List.mem_filter.mp hmem).2
    unfold keepIssue at hkeep
    simp only [Bool.and_eq_true, decide_eq_true_eq, Bool.not_eq_true'] at hkeep
    obtain ⟨⟨⟨hfile, hunk⟩, hnm⟩, hline⟩ := hkeep
    refine ⟨hfile, hunk, ?_, ?_⟩
    · intro hseg
      have := mem_splitOnChar_substr '/' i.file.data ("node_modules").data hseg
      show False
      rw [show infixOfC ("node_modules").data i.file.data =
        jsIncludes i.file "node_modules" from rfl] at this
      rw [hnm] at this
      exact absurd this (by simp)
    · cases hl : i.line with
      | none => rw [hl] at hline; exact absurd hline (by simp)
      | some n =>
        rw [hl] at hline
        exact ⟨n, rfl, by simpa using hline⟩
  · intro hfalse hmem
    have := (List.mem_filter.mp hmem).2
    rw [hfalse] at this
    exact absurd this (by simp)

/-- Witness for claim C7 at a concrete retained issue. -/
theorem final_filter_invariant_witness :
    (Issue.mk "src/a.js" (some 3) (some 1) Severity.warning "semi" "missing semicolon").file
        ≠ "" ∧
    (Issue.mk "src/a.js" (some 3) (some 1) Severity.warning "semi" "missing semicolon").file
        ≠ "unknown" ∧
    (("node_modules").data ∉ splitSegs
      (Issue.mk "src/a.js" (some 3) (some 1) Severity.warning "semi"
        "missing semicolon").file.data) ∧
    (∃ n, (Issue.mk "src/a.js" (some 3) (some 1) Severity.warning "semi"
        "missing semicolon").line = some n ∧ 0 < n) :=
  (final_filter_invariant
      [Issue.mk "src/a.js" (some 3) (some 1) Severity.warning "semi" "missing semicolon"]
      (Issue.mk "src/a.js" (some 3) (some 1) Severity.warning "semi"
        "missing semicolon")).1 (by decide)

/-- Claim C9: the ESLint standardization branch never produces an `info`
issue: a native severity of 2 maps to `error` and every other native
severity maps to `warning`, so every issue in the standardized ESLint
result has severity `error` or `warning`. -/
theorem eslint_no_info :
    (∀ s : Int, (eslintSeverity s = .error ↔ s = 2) ∧
      (s ≠ 2 → eslintSeverity s = .warning) ∧ eslintSeverity s ≠ .info) ∧
    (∀ (cwd baseDirectory : String) (files : List EslintFile) (i : Issue),
      i ∈ (standardizeESLint cwd baseDirectory files).issues → i.severity ≠ .info) := by
  constructor
  · intro s
    unfold eslintSeverity
    by_cases h : s = 2
    · subst h
      refine ⟨by simp, fun hc => absurd rfl hc, by simp⟩
    · rw [if_neg h]
      exact ⟨⟨fun hc => absurd hc (by simp), fun hc => absurd hc h⟩, fun _ => rfl, by simp⟩
  · intro cwd baseDirectory files i hmem
    have hraw : i ∈ eslintRawIssues cwd baseDirectory files :=
      (List.mem_filter.mp hmem).1
    rcases List.mem_flatMap.mp hraw with ⟨f, -, hif⟩
    unfold eslintIssuesOfFile at hif
    rcases List.mem_map.mp hif with ⟨m, -, hi⟩
    rw [← hi]
    show eslintSeverity m.severity ≠ .info
    unfold eslintSeverity
    by_cases h : m.severity = 2
    · rw [if_pos h]; simp
    · rw [if_neg h]; simp

/-- Witness for claim C9 at a concrete standardized issue. -/
theorem eslint_no_info_witness :
    (Issue.mk "a.js" (some 3) (some 1) (eslintSeverity 1) "semi" "m").severity
      ≠ Severity.info :=
  eslint_no_info.2 "/" "/ws" [⟨"a.js", 0, 1, [⟨some 3, some 1, 1, some "semi", "m"⟩]⟩]
    (Issue.mk "a.js" (some 3) (some 1) (eslintSeverity 1) "semi" "m") (by decide)

/-- Claim C10: `validatePmdRulesetPath` rejects any non-URL, non-category
reference containing the substring `..` anywhere in the (trimmed) string,
not only as a path segment; in particular the relative file name
`rules..xml`, which has no `..` segment and never escapes the base
directory, is rejected. -/
theorem dotdot_substring_rejection (s directory : String)
    (h1 : jsStartsWith (jsTrim s) "http://" = false)
    (h2 : jsStartsWith (jsTrim s) "https://" = false)
    (h3 : jsStartsWith (jsTrim s) "category/" = false)
    (h4 : jsIncludes (jsTrim s) ".." = true) :
    (validatePmdRulesetPath s directory).isOk = false ∧
    ((validatePmdRulesetPath "rules..xml" directory).isOk = false ∧
      pathIsAbsolute (jsTrim "rules..xml") = false ∧
      (['.', '.'] ∉ splitSegs (jsTrim "rules..xml").data)) := by
  refine ⟨?_, rfl, rfl, by decide⟩
  unfold validatePmdRulesetPath
  rw [if_neg (by rw [h1, h2, h3]; simp)]
  by_cases habs : pathIsAbsolute (jsTrim s) = true
  · rw [if_pos habs]; rfl
  · rw [if_neg habs, if_pos h4]; rfl

/-- Witness for claim C10 at a concrete reference. -/
theorem dotdot_substring_rejection_witness :
    (validatePmdRulesetPath "a..b.xml" "/ws").isOk = false :=
  (dotdot_substring_rejection "a..b.xml" "/ws" (by decide) (by decide) (by decide)
    (by decide)).1

/-- Claim C5, counterexample: the claim asserts `safeJoin(base, "..", "..",
"etc")` always fails and `safeJoin(base)` returns `base` unchanged.  For
`base = "/etc"` the traversal resolves to `/etc/../../etc = /etc`, which
is the base itself, so the call succeeds; and for the non-normalized
`base = "/tmp/foo/"` the zero-segment call returns the resolved
`"/tmp/foo"`, not `base` unchanged. -/
theorem safeJoin_cex :
    safeJoinPath "/" "/etc" ["..", "..", "etc"] = .ok "/etc" ∧
    safeJoinPath "/" "/tmp/foo/" [] = .ok "/tmp/foo" ∧
    ("/tmp/foo" : String) ≠ "/tmp/foo/" :=
  ⟨rfl, rfl, by decide⟩

/-- Claim C5, amended: for every absolute base, `safeJoin(base)` with zero
segments returns `resolve(base)` — equal to `base` exactly when `base` is
already a resolved (canonical) absolute path — and `safeJoin(base, "..",
"..", "etc")` fails unless `base` resolves to `/etc` itself, in which case
the traversal re-enters the base and the call returns `/etc`. -/
theorem safeJoin_characterization (cwd base : String)
    (habs : pathIsAbsolute base = true) :
    safeJoinPath cwd base [] = .ok (pathResolve cwd base) ∧
    (∀ L, stackSegs L → base = canonicalAbs L → safeJoinPath cwd base [] = .ok base) ∧
    (pathResolve cwd base ≠ "/etc" →
      (safeJoinPath cwd base ["..", "..", "etc"]).isOk = false) ∧
    (pathResolve cwd base = "/etc" →
      safeJoinPath cwd base ["..", "..", "etc"] = .ok "/etc") := by
  have habs' : isAbsC base.data = true := habs
  refine ⟨safeJoinPath_zero cwd base habs', ?_, ?_, ?_⟩
  · intro L hL hbase
    rw [safeJoinPath_zero cwd base habs', hbase, pathResolve_canonical cwd L hL]
  · intro hne
    rcases safeJoinPath_traversal_outcome cwd base habs' with ⟨heq, -⟩ | ⟨-, hres⟩
    · exact absurd heq hne
    · exact hres
  · intro heq
    rcases safeJoinPath_traversal_outcome cwd base habs' with ⟨-, hok⟩ | ⟨hne, -⟩
    · exact hok
    · exact absurd heq hne

/-- Witness for claim C5 at a concrete base below the root. -/
theorem safeJoin_characterization_witness :
    safeJoinPath "/" "/ws/proj" [] = .ok "/ws/proj" ∧
    (safeJoinPath "/" "/ws/proj" ["..", "..", "etc"]).isOk = false :=
  ⟨by
    have h := (safeJoin_characterization "/" "/ws/proj" (by decide)).1
    rw [h]; rfl,
   (safeJoin_characterization "/" "/ws/proj" (by decide)).2.2.1 (by decide)⟩

/-- Claim C8, counterexample: the claim asserts the round trip returns a
path identical to the original absolute path the tool reported whenever
that path lay inside the workspace.  For the tool-reported path
`/ws//a.js` (inside workspace `/ws` but not in normal form) the round
trip returns the normalized `/ws/a.js`, a different string. -/
theorem round_trip_cex :
    safeJoinPath "/" "/ws" [normalizeAndRelativizePath "/" "/ws//a.js" "/ws" false] =
      .ok "/ws/a.js" ∧
    ("/ws/a.js" : String) ≠ "/ws//a.js" :=
  ⟨rfl, by decide⟩

/-- Claim C8, amended: the round trip returns the normal form of the
reported path, hence the reported path itself exactly when that path was
already canonical: for every canonical workspace base (below the root)
and every path equal to the base or canonically below it,
`safeJoin(base, relativize(path, base))` returns exactly `path`. -/
theorem round_trip_canonical (cwd : String) (B rest : List Seg) (hB : stackSegs B)
    (hrest : stackSegs rest) (hBne : B ≠ []) (hnbB : noBS B) (hnbRest : noBS rest) :
    safeJoinPath cwd (canonicalAbs B)
        [normalizeAndRelativizePath cwd (canonicalAbs (B ++ rest)) (canonicalAbs B) false] =
      .ok (canonicalAbs (B ++ rest)) := by
  have hb : isAbsC (canonicalAbs B).data = true := isAbsC_slash _
  have hrb : pathResolve cwd (canonicalAbs B) = canonicalAbs B :=
    pathResolve_canonical cwd B hB
  rw [relativize_canonical cwd B rest hB hrest hnbB hnbRest]
  by_cases h : rest = []
  · subst h
    rw [if_pos rfl]
    have hrp : pathResolve cwd (pathJoin [canonicalAbs B, "."]) = canonicalAbs B := by
      rw [pathResolve_pathJoin_two cwd (canonicalAbs B) "." hb (by decide)]
      show (⟨resolveChars cwd.data (('/' :: joinSegs B) ++ '/' :: ['.'])⟩ : String) = _
      rw [resolve_canonical_dot cwd.data B hB hBne]
      rfl
    rw [safeJoinPath_eval cwd (canonicalAbs B) ["."] _ _ hrp hrb]
    rw [if_pos (Or.inr rfl)]
    simp
  · rw [if_neg h]
    have hBR : stackSegs (B ++ rest) := by
      intro s hs
      rcases List.mem_append.mp hs with h1 | h1
      · exact hB s h1
      · exact hrest s h1
    have hjoinne : joinSegs rest ≠ [] :=
      joinSegs_ne_nil rest h (fun s hs => (hrest s hs).1.1)
    have hrp : pathResolve cwd (pathJoin [canonicalAbs B, (⟨joinSegs rest⟩ : String)]) =
        canonicalAbs (B ++ rest) := by
      rw [pathResolve_pathJoin_two cwd (canonicalAbs B) (⟨joinSegs rest⟩ : String) hb hjoinne]
      show (⟨resolveChars cwd.data (('/' :: joinSegs B) ++ '/' :: joinSegs rest)⟩ : String) = _
      rw [resolve_canonical_append cwd.data B rest hB hrest hBne h]
      rfl
    have hpre : jsStartsWith (canonicalAbs (B ++ rest)) (canonicalAbs B ++ "/") = true := by
      show isPrefixOfC (('/' :: joinSegs B) ++ ['/']) ('/' :: joinSegs (B ++ rest)) = true
      exact (canonical_strict_prefix_iff B (B ++ rest) hB hBR hBne).mpr ⟨rest, h, rfl⟩
    rw [safeJoinPath_eval cwd (canonicalAbs B) [(⟨joinSegs rest⟩ : String)] _ _ hrp hrb]
    rw [if_pos (Or.inl hpre)]

/-- Witness for claim C8 at a concrete workspace and file. -/
theorem round_trip_canonical_witness :
    safeJoinPath "/" (canonicalAbs [['w', 's']])
        [normalizeAndRelativizePath "/"
          (canonicalAbs ([['w', 's']] ++ [['s', 'r', 'c'], ['a', '.', 'j', 's']]))
          (canonicalAbs [['w', 's']]) false] =
      .ok (canonicalAbs ([['w', 's']] ++ [['s', 'r', 'c'], ['a', '.', 'j', 's']])) :=
  round_trip_canonical "/" [['w', 's']] [['s', 'r', 'c'], ['a', '.', 'j', 's']]
    (by decide) (by decide) (by decide) (by decide) (by decide)

end AiCodeFixer
